import Mathlib

/-!
A shallow embedding of the megabot orchestration core (TypeScript) in Lean 4,
with theorems checking the natural-language specification against the code.

Embedded components and their sources:
* `ToolRegistry` (register/search/execute)    — src/unnamed/part_005
* `ModelRouter.route`                         — src/app/lib/core/model-router.ts
* `AgentRunner.stream` (the tool-call loop)   — src/unnamed/part_004
* `ChatStreamManager.subscribeFromCurrentTurn`— src/app/lib/core/chat-stream-manager.ts
* `safeParseArgs` / `truncateHistory`         — chat-handler-utils (src/app/lib/logger.ts blob)
* `ChatHandler.loadHistory`                   — src/app/lib/core/chat-handler.ts
* scheduler firing update                     — src/app/lib/inngest/functions/run-scheduler.ts

External collaborators (the JS runtime's `JSON.parse`/`JSON.stringify`, the
provider SDK, the database) are modelled as parameters or as already-decoded
values, never as stubs of this repository's own logic.
-/

/-! ### Basic data model (src/app/lib/types/agent.ts, llm blob) -/

/-- Message role: `"user" | "assistant" | "system" | "tool"` (DB rows use all
four; LLM messages only ever construct the first three). -/
inductive Role
  | user
  | assistant
  | system
  | tool
deriving DecidableEq, Repr

/-! JS string builtins used by the embedded code, modelled over the character
list underlying a `String` (Lean's own `String.trim`/`toLower`/`splitOn` are
irreducible in the kernel, so witnesses could not evaluate them). -/

/-- JS `String.prototype.toLowerCase`, per character. -/
def jsToLower (s : String) : String := ⟨s.data.map Char.toLower⟩

/-- JS `String.prototype.trim`: strip leading and trailing whitespace. -/
def jsTrim (s : String) : String :=
  ⟨(((s.data.dropWhile Char.isWhitespace).reverse).dropWhile Char.isWhitespace).reverse⟩

/-- Whether `p` is an initial segment of the second list. -/
def listStartsWith : List Char → List Char → Bool
  | [], _ => true
  | _ :: _, [] => false
  | p :: ps, c :: cs => p == c && listStartsWith ps cs

/-- Whether `pat` occurs contiguously anywhere in the list. -/
def listContains (pat : List Char) : List Char → Bool
  | [] => listStartsWith pat []
  | c :: cs => listStartsWith pat (c :: cs) || listContains pat cs

/-- JS `String.prototype.includes` (substring test). -/
def strIncludes (h pat : String) : Bool := listContains pat.data h.data

/-- Accumulator loop for splitting on a separator character. -/
def splitCharAux (sep : Char) : List Char → List Char → List (List Char)
  | [], acc => [acc.reverse]
  | c :: cs, acc =>
    if c == sep then acc.reverse :: splitCharAux sep cs []
    else splitCharAux sep cs (c :: acc)

/-- JS `String.prototype.split` with a one-character separator (the only kind
the embedded code uses: `split(":")`). -/
def jsSplitChar (sep : Char) (s : String) : List String :=
  (splitCharAux sep s.data []).map String.mk

/-- Accumulator loop for splitting on whitespace. -/
def splitWsAux : List Char → List Char → List (List Char)
  | [], acc => [acc.reverse]
  | c :: cs, acc =>
    if c.isWhitespace then acc.reverse :: splitWsAux cs []
    else splitWsAux cs (c :: acc)

/-- JS `String.prototype.split(/\s+/)` up to empty fragments: splitting on
every single whitespace character yields `""` fragments inside runs where the
regex collapses them, but every consumer filters by a length bound that
removes empties anyway. -/
def jsSplitWs (s : String) : List String :=
  (splitWsAux s.data []).map String.mk

/-- Parsed tool-call arguments. `JSON.parse` produces a JS object; the runner
only ever reads string-valued fields (`parsedArgs.query`), so an object is
modelled as an association list of string fields. -/
abbrev Args := List (String × String)

/-- `parsedArgs.query as string | undefined` — first field with the key. -/
def lookupArg (args : Args) (key : String) : Option String :=
  (args.find? (fun p => p.1 == key)).map Prod.snd

/-- Content block (types blob): `text`, `tool_use`, `tool_result`. -/
inductive ContentBlock
  | text (text : String)
  | toolUse (id name : String) (input : Args)
  | toolResult (toolUseId content : String) (isError : Bool)
deriving DecidableEq, Repr

/-- `LLMMessage.content : string | ContentBlock[]`. -/
inductive MsgContent
  | str (s : String)
  | blocks (bs : List ContentBlock)
deriving DecidableEq, Repr

/-- An LLM-facing message (types blob). -/
structure LLMMessage where
  role : Role
  content : MsgContent
deriving DecidableEq, Repr

/-- Token usage summary carried by `done` chunks. -/
structure Usage where
  inputTokens : Nat
  outputTokens : Nat
deriving DecidableEq, Repr

/-- Stream chunk (types blob, full variant with tool-call chunk types).
The TS type is one record with a `type` tag and optional fields; each variant
below carries the fields the code reads for that tag.  `text` merges the JS
`undefined` text with `""` (both falsy, treated identically by all readers);
`done` keeps its `usage` optional because the runner's loop only swallows a
`done` chunk when `chunk.usage` is truthy. -/
inductive LLMChunk
  | text (text : String)
  | toolCallStart (toolCallId toolName : String)
  | toolCallDelta (toolCallId toolArgs : String)
  | toolCallEnd (toolCallId toolName : String) (toolArgs : Option String)
  | toolCallsPending
  | toolExecuting (toolCallId toolName : String)
  | toolResult (toolCallId toolName content : String) (isError : Bool)
  | done (usage : Option Usage)
  | error (error : String)
deriving DecidableEq, Repr

/-- `chunk.type === "tool_result"`. -/
def LLMChunk.isToolResultType : LLMChunk → Bool
  | .toolResult _ _ _ _ => true
  | _ => false

/-- `chunk.type === "tool_call_end"`. -/
def LLMChunk.isToolCallEndType : LLMChunk → Bool
  | .toolCallEnd _ _ _ => true
  | _ => false

/-- `chunk.type === "error"`. -/
def LLMChunk.isErrorType : LLMChunk → Bool
  | .error _ => true
  | _ => false

/-- `chunk.type === "done"`. -/
def LLMChunk.isDoneType : LLMChunk → Bool
  | .done _ => true
  | _ => false

/-- `type === "text" || type === "tool_call_start"` (the turn-boundary test in
chat-stream-manager.ts, line 165). -/
def LLMChunk.isTurnStartType : LLMChunk → Bool
  | .text _ => true
  | .toolCallStart _ _ => true
  | _ => false

/-! ### Tool registry (src/unnamed/part_005) -/

/-- `ToolResult` (src/app/lib/types/tool.ts): `success` flag plus payload.
`data : unknown` is modelled by its string rendering (the only consumer,
`executeTool`, uses `typeof data === "string" ? data : JSON.stringify(data)`),
`error?: string` by a string defaulting to `""`. -/
structure ToolResult where
  success : Bool
  data : String := ""
  error : String := ""
deriving DecidableEq, Repr

/-- Outcome of invoking a tool's `execute` function: a JS function can return
normally, throw an `Error` (with a `.message`), or throw a non-`Error` value. -/
inductive ToolRunOutcome
  | returns (r : ToolResult)
  | throwErr (msg : String)
  | throwOther
deriving Repr

/-- A registered tool (src/app/lib/types/tool.ts + the `keywords` field used by
`ToolRegistry.search`).  `parameters`/`permissions` are carried along by the
code but never branched on by the embedded operations, so they are omitted. -/
structure Tool where
  name : String
  description : String
  keywords : Option (List String) := none
  run : Args → ToolRunOutcome

/-- The registry: a JS `Map` keyed by name, which preserves insertion order;
modelled as the list of tools in registration order. -/
structure ToolRegistry where
  tools : List Tool

/-- `this.tools.get(name)` — name lookup (names are unique by `register`). -/
def ToolRegistry.find? (reg : ToolRegistry) (name : String) : Option Tool :=
  reg.tools.find? (fun t => t.name == name)

/-- `ToolRegistry.execute` (part_005 lines 56-73): unknown name fails closed
with `Tool "<name>" not found`; a thrown exception is caught and converted to
`success: false` with `err instanceof Error ? err.message : "Unknown error"`. -/
def ToolRegistry.execute (reg : ToolRegistry) (name : String) (params : Args) : ToolResult :=
  match reg.find? name with
  | none => { success := false, error := "Tool \"" ++ name ++ "\" not found" }
  | some t =>
    match t.run params with
    | .returns r => r
    | .throwErr m => { success := false, error := m }
    | .throwOther => { success := false, error := "Unknown error" }

/-- `query.toLowerCase().split(/\s+/).filter(w => w.length > 2)` (part_005
lines 31-34). -/
def tokenizeQuery (query : String) : List String :=
  (jsSplitWs (jsToLower query)).filter (fun w => w.length > 2)

/-- The search haystack: `[name, description, ...keywords].join(" ")`, all
lowercased (part_005 lines 40-44). -/
def Tool.haystack (t : Tool) : String :=
  String.intercalate " "
    (jsToLower t.name :: jsToLower t.description :: (t.keywords.getD []).map jsToLower)

/-- `words.filter(w => haystack.includes(w)).length` — the relevance score. -/
def Tool.hitCount (t : Tool) (words : List String) : Nat :=
  (words.filter (fun w => strIncludes t.haystack w)).length

/-- One insertion step of the stable descending sort: skip over strictly
higher-scored entries, then place `x` (ties are not skipped, so an element
inserted later — i.e. earlier in registration order — stays in front). -/
def insertDesc (x : Tool × Nat) : List (Tool × Nat) → List (Tool × Nat)
  | [] => [x]
  | y :: ys => if x.2 < y.2 then y :: insertDesc x ys else x :: y :: ys

/-- `scored.sort((a, b) => b.hits - a.hits)` — JS `Array.prototype.sort` is a
stable sort, rendered as a stable insertion sort by descending score. -/
def sortByHitsDesc : List (Tool × Nat) → List (Tool × Nat)
  | [] => []
  | x :: xs => insertDesc x (sortByHitsDesc xs)

/-- `ToolRegistry.search` (part_005 lines 30-54): tokenize, fall back to all
tools on an empty token list, score, drop zero scores, stable-sort descending. -/
def ToolRegistry.search (reg : ToolRegistry) (query : String) : List Tool :=
  let words := tokenizeQuery query
  if words.isEmpty then reg.tools
  else
    let scored := (reg.tools.map (fun t => (t, t.hitCount words))).filter (fun p => 0 < p.2)
    (sortByHitsDesc scored).map Prod.fst

/-! ### Model router (src/app/lib/core/model-router.ts) -/

/-- `"fast" | "standard" | "powerful"`. -/
inductive ModelTier
  | fast
  | standard
  | powerful
deriving DecidableEq, Repr

/-- A provider model entry; only the fields the router reads. -/
structure ModelDefinition where
  id : String
  tier : ModelTier
deriving DecidableEq, Repr

/-- An LLM plugin as the router sees it: an id and a model list. -/
structure LLMPlugin where
  id : String
  models : List ModelDefinition
deriving DecidableEq, Repr

/-- `route`'s criteria object `{ tier?, modelId? }`. -/
structure RouteParams where
  tier : Option ModelTier := none
  modelId : Option String := none
deriving DecidableEq, Repr

/-- `RouteResult`: the selected `(plugin, model)` pair. -/
structure RouteResult where
  plugin : LLMPlugin
  model : ModelDefinition
deriving DecidableEq, Repr

/-- `modelId.includes(":") ? modelId.split(":", 2) : [undefined, modelId]` —
with a `":"` present, JS `split(":", 2)` keeps the first two fragments and
discards the rest. -/
def parseModelId (mid : String) : Option String × String :=
  match jsSplitChar ':' mid with
  | p :: m :: _ => (some p, m)
  | _ => (none, mid)

/-- `if (providerId && plugin.id !== providerId) continue` — the plugin is
skipped only when the provider prefix is truthy (present and nonempty) and
differs from the plugin id. -/
def providerMismatch (providerId : Option String) (pluginId : String) : Bool :=
  match providerId with
  | some p => !(p == "") && !(pluginId == p)
  | none => false

/-- The model-id scan (model-router.ts lines 38-45): first plugin, in
registration order, that is not skipped and whose model list contains the id. -/
def findByModelId (plugins : List LLMPlugin) (providerId : Option String)
    (modelId : String) : Option RouteResult :=
  match plugins with
  | [] => none
  | plugin :: rest =>
    if providerMismatch providerId plugin.id then findByModelId rest providerId modelId
    else
      match plugin.models.find? (fun m => m.id == modelId) with
      | some m => some ⟨plugin, m⟩
      | none => findByModelId rest providerId modelId

/-- The tier scan (model-router.ts lines 51-57): first plugin whose model list
contains a model of the target tier. -/
def findByTier (plugins : List LLMPlugin) (tier : ModelTier) : Option RouteResult :=
  match plugins with
  | [] => none
  | plugin :: rest =>
    match plugin.models.find? (fun m => m.tier == tier) with
    | some m => some ⟨plugin, m⟩
    | none => findByTier rest tier

/-- `ModelRouter.route` (model-router.ts lines 23-74).  `params?.modelId` is a
JS truthiness test, so `modelId: ""` falls through to tier routing exactly as
an absent `modelId` does; `params?.tier ?? "standard"` defaults the tier. -/
def ModelRouter.route (llmPlugins : List LLMPlugin) (params : RouteParams) :
    Except String RouteResult :=
  if llmPlugins.isEmpty then
    .error "No LLM plugins registered. Please configure at least one LLM provider (e.g. set ANTHROPIC_API_KEY)."
  else
    match (match params.modelId with
           | some mid => if mid == "" then none else some mid
           | none => none) with
    | some mid =>
      let pm := parseModelId mid
      match findByModelId llmPlugins pm.1 pm.2 with
      | some r => .ok r
      | none => .error ("Model \"" ++ mid ++ "\" not found in any registered LLM plugin")
    | none =>
      let targetTier := params.tier.getD .standard
      match findByTier llmPlugins targetTier with
      | some r => .ok r
      | none =>
        match llmPlugins with
        | [] => .error "No LLM plugins registered"
        | fallbackPlugin :: _ =>
          match fallbackPlugin.models with
          | [] => .error ("LLM plugin \"" ++ fallbackPlugin.id ++ "\" has no models registered")
          | m :: _ => .ok ⟨fallbackPlugin, m⟩

/-! ### Chat handler utilities (chat-handler-utils blob) -/

/-- `safeParseArgs` (chat-handler-utils lines 30-37), parameterized by the JS
runtime's `JSON.parse` viewed as a partial function (`none` models a thrown
`SyntaxError`).  `!raw || raw.trim().length === 0` collapses to the trim test
since `""` trims to `""`. -/
def safeParseArgs (jsonParse : String → Option Args) (raw : String) : Args :=
  if (jsTrim raw).length = 0 then []
  else
    match jsonParse raw with
    | some o => o
    | none => []

/-- Character length of one message: `content.length` for plain text,
`JSON.stringify(content).length` for block content — the stringified length is
supplied by the external `blocksLen` parameter. -/
def msgCharLen (blocksLen : List ContentBlock → Nat) (m : LLMMessage) : Nat :=
  match m.content with
  | .str s => s.length
  | .blocks bs => blocksLen bs

/-- The backwards accumulation loop of `truncateHistory` (lines 63-74): walk
from the newest message, keep messages while they fit, but always keep at
least one (`kept.length > 0` guards the break).  The first argument is the
history in reverse order. -/
def keepRecent (blocksLen : List ContentBlock → Nat) (maxChars : Nat) :
    List LLMMessage → Nat → List LLMMessage → List LLMMessage
  | [], _, kept => kept
  | m :: rest, chars, kept =>
    if chars + msgCharLen blocksLen m > maxChars ∧ kept ≠ [] then kept
    else keepRecent blocksLen maxChars rest (chars + msgCharLen blocksLen m) (m :: kept)

/-- The trailing `while` loop of `truncateHistory` (lines 77-80).  The source
reads `firstMsg = kept[0]` once, before the loop; when that first message
exists and is not user-role the loop's condition never changes, so it shifts
until `kept` is empty. -/
def fixLeadingUser (kept : List LLMMessage) : List LLMMessage :=
  match kept with
  | [] => []
  | m :: rest => if m.role = .user then m :: rest else []

/-- `truncateHistory` (chat-handler-utils lines 44-83). -/
def truncateHistory (blocksLen : List ContentBlock → Nat) (msgs : List LLMMessage)
    (maxChars : Nat) : List LLMMessage :=
  let totalChars := (msgs.map (msgCharLen blocksLen)).sum
  if totalChars ≤ maxChars then msgs
  else fixLeadingUser (keepRecent blocksLen maxChars msgs.reverse 0 [])

/-- A persisted message row as `loadHistory` reads it (schema part_001): role,
plain-text content, and the optional `toolCalls` JSON column.  Rows are given
in `ORDER BY created_at ASC` order; the stored JSON — always written by
`JSON.stringify` of a block list — is modelled already decoded. -/
structure MessageRow where
  role : Role
  content : String
  toolCalls : Option (List ContentBlock) := none

/-- The row-to-message conversion loop of `ChatHandler.loadHistory`
(chat-handler.ts lines 441-462): block rows keep their role except `tool`
rows, which are re-rolled to `user`; plain rows are passed through; plain
`tool` rows are dropped. -/
def rowsToMessages : List MessageRow → List LLMMessage
  | [] => []
  | row :: rest =>
    match row.toolCalls with
    | some blocks =>
      if row.role = .tool then ⟨.user, .blocks blocks⟩ :: rowsToMessages rest
      else ⟨row.role, .blocks blocks⟩ :: rowsToMessages rest
    | none =>
      if row.role = .tool then rowsToMessages rest
      else ⟨row.role, .str row.content⟩ :: rowsToMessages rest

/-- `MAX_HISTORY_CHARS` (chat-handler.ts line 438). -/
def MAX_HISTORY_CHARS : Nat := 400000

/-- `ChatHandler.loadHistory` (chat-handler.ts lines 430-465): convert rows,
then truncate to the character budget. -/
def ChatHandler.loadHistory (blocksLen : List ContentBlock → Nat)
    (rows : List MessageRow) : List LLMMessage :=
  truncateHistory blocksLen (rowsToMessages rows) MAX_HISTORY_CHARS

/-! ### Chat stream manager (src/app/lib/core/chat-stream-manager.ts) -/

/-- The per-conversation stream record: the ordered chunk buffer and the done
flag (subscriber set and cleanup timer carry no information the embedded
operations read). -/
structure ActiveStream where
  chunks : List LLMChunk
  done : Bool

/-- A linear scan for the first element satisfying `p`, returning its index —
the shape of both index loops in `getCurrentTurnStartIndex`. -/
def scanFirstIdx (p : LLMChunk → Bool) : List LLMChunk → Option Nat
  | [] => none
  | c :: cs => if p c then some 0 else (scanFirstIdx p cs).map (· + 1)

/-- The backwards scan of `getCurrentTurnStartIndex` (lines 155-161): index of
the last `tool_result` chunk plus one, or `0` when there is none (the source's
`lastToolResultIdx = -1`, plus one; scanning the reversed buffer finds the
last occurrence). -/
def lastToolResultSucc (chunks : List LLMChunk) : Nat :=
  match scanFirstIdx LLMChunk.isToolResultType chunks.reverse with
  | some k => chunks.length - k
  | none => 0

/-- `getCurrentTurnStartIndex` (lines 154-172): the first `text` or
`tool_call_start` chunk after the most recent `tool_result`, or the buffer
length when no such chunk exists. -/
def getCurrentTurnStartIndex (chunks : List LLMChunk) : Nat :=
  let start := lastToolResultSucc chunks
  match scanFirstIdx LLMChunk.isTurnStartType (chunks.drop start) with
  | some j => start + j
  | none => chunks.length

/-- `subscribeFromCurrentTurn` (lines 119-147), for a given stream record (or
none).  Returns the chunks replayed into the callback and whether the callback
was added to the live subscriber set.  The source's second `stream.done` check
(after replay) guards a concurrent completion; in this sequential model `done`
cannot change during replay. -/
def subscribeFromCurrentTurn (stream : Option ActiveStream) : List LLMChunk × Bool :=
  match stream with
  | none => ([], false)
  | some s =>
    if s.done then ([], false)
    else (s.chunks.drop (getCurrentTurnStartIndex s.chunks), true)

/-! ### Scheduler firing (src/app/lib/inngest/functions/run-scheduler.ts) -/

/-- `type TEXT CHECK(type IN ('recurring', 'one_shot'))`. -/
inductive SchedKind
  | recurring
  | one_shot
deriving DecidableEq, Repr

/-- `status TEXT CHECK(status IN ('active', 'paused', 'completed'))`. -/
inductive SchedStatus
  | active
  | paused
  | completed
deriving DecidableEq, Repr

/-- A `scheduled_tasks` row, the columns the scheduler reads and writes.
Timestamps are epoch milliseconds (`Date.getTime()`), as stored integers. -/
structure ScheduledTask where
  id : String
  type : SchedKind
  status : SchedStatus
  nextRunAt : Option Int := none
  lastRunAt : Option Int := none
deriving DecidableEq, Repr

/-- The due filter of `runScheduler` (lines 36-41): `status = 'active' AND
next_run_at <= now` — a SQL `<=` against a NULL `next_run_at` selects nothing. -/
def ScheduledTask.isDue (t : ScheduledTask) (now : Int) : Bool :=
  t.status == .active &&
    (match t.nextRunAt with
     | some n => n ≤ now
     | none => false)

/-- The post-dispatch update of `runScheduler` (lines 94-106): `last_run_at`
set to the firing time, `next_run_at` advanced by 60 000 ms for recurring
tasks and cleared for one-shots, status moved to `completed` for one-shots and
kept `active` otherwise. -/
def ScheduledTask.fireUpdate (t : ScheduledTask) (now : Int) : ScheduledTask :=
  { t with
    lastRunAt := some now
    nextRunAt := if t.type = .recurring then some (now + 60000) else none
    status := if t.type = .one_shot then .completed else .active }

/-! ### Agent runner (src/unnamed/part_004) -/

/-- A buffered pending tool call (part_004 lines 58-62). -/
structure PendingToolCall where
  id : String
  name : String
  args : String
deriving DecidableEq, Repr

/-- How one `plugin.chat` invocation ends after yielding its chunks: normal
return, a thrown `Error` (caught as `err.message`), or a thrown non-`Error`
value (caught as `"Unknown error"`). -/
inductive CallEnd
  | normal
  | throwErr (msg : String)
  | throwOther
deriving DecidableEq, Repr

/-- One model call as observed by the runner: the chunks the provider stream
yielded, and how the stream ended.  A script of these models the external
provider along one execution path. -/
structure ModelCall where
  chunks : List LLMChunk
  callEnd : CallEnd
deriving DecidableEq, Repr

/-- The accumulator of `AgentRunner.callLLM` (part_004 lines 160-208):
chunks yielded downstream, accumulated text, buffered pending calls, the
`tool_calls_pending` flag, the error flag, and usage deltas. -/
structure CallOut where
  emitted : List LLMChunk := []
  fullText : String := ""
  pending : List PendingToolCall := []
  hasPending : Bool := false
  hadError : Bool := false
  usageIn : Nat := 0
  usageOut : Nat := 0
deriving DecidableEq, Repr

/-- The body of `callLLM`'s `for await` loop (part_004 lines 182-199), one
chunk at a time.  Every chunk is yielded through except a `done` chunk with a
truthy usage, which is accumulated and skipped (`continue`); an `error`-typed
chunk additionally emits an `llm.error` event (not modelled) but flows
through without setting the error flag. -/
def processChunk (st : CallOut) (c : LLMChunk) : CallOut :=
  match c with
  | .text t =>
    { st with fullText := if t == "" then st.fullText else st.fullText ++ t
              emitted := st.emitted ++ [c] }
  | .toolCallEnd id name args =>
    { st with pending := st.pending ++ [⟨id, name, args.getD "\x7b\x7d"⟩]
              emitted := st.emitted ++ [c] }
  | .toolCallsPending =>
    { st with hasPending := true, emitted := st.emitted ++ [c] }
  | .done u =>
    match u with
    | some usage =>
      { st with usageIn := st.usageIn + usage.inputTokens
                usageOut := st.usageOut + usage.outputTokens }
    | none => { st with emitted := st.emitted ++ [c] }
  | _ => { st with emitted := st.emitted ++ [c] }

/-- `AgentRunner.callLLM` (part_004 lines 146-209): fold the yielded chunks,
then handle the stream's ending — a throw is caught, converted to a single
`error` chunk, and flagged so the caller breaks out of the loop. -/
def runModelCall (mc : ModelCall) : CallOut :=
  let st := mc.chunks.foldl processChunk {}
  match mc.callEnd with
  | .normal => st
  | .throwErr m => { st with emitted := st.emitted ++ [.error m], hadError := true }
  | .throwOther => { st with emitted := st.emitted ++ [.error "Unknown error"], hadError := true }

/-- `result.success ? (string data) : "Error: " + error` (part_004 357-361). -/
def renderResultContent (r : ToolResult) : String :=
  if r.success then r.data else "Error: " ++ r.error

/-- JS `Set.prototype.add` on the active-tool-name set. -/
def addActive (active : List String) (n : String) : List String :=
  if n ∈ active then active else active ++ [n]

/-- `for (const tool of ...) activeToolNames.add(tool.name)`. -/
def addAllActive (active : List String) (ns : List String) : List String :=
  ns.foldl addActive active

/-- Output of `AgentRunner.executeTool` for one pending call: the chunks it
yields, the `tool_result` block it returns, and the active set after the
`search_tools` expansion. -/
structure ToolExecOut where
  emitted : List LLMChunk
  block : ContentBlock
  active : List String
deriving Repr

/-- The `search_tools` expansion at the tail of `AgentRunner.executeTool`
(part_004 lines 384-392): when the executed call was the discovery tool and it
succeeded with a truthy `query` argument, every name `ToolRegistry.search`
returns for that query is added to the active set. -/
def expandActiveAfterTool (jsonParse : String → Option Args) (reg : ToolRegistry)
    (active : List String) (tc : PendingToolCall) : List String :=
  if tc.name == "search_tools" &&
      (reg.execute tc.name (safeParseArgs jsonParse tc.args)).success then
    match lookupArg (safeParseArgs jsonParse tc.args) "query" with
    | some q =>
      if q == "" then active
      else addAllActive active ((reg.search q).map Tool.name)
    | none => active
  else active

/-- `AgentRunner.executeTool` (part_004 lines 321-400): yield `tool_executing`,
parse the raw args safely, run the registry execution (which never raises),
yield the `tool_result` chunk, and apply the `search_tools` expansion to the
active tool-name set. -/
def executeTool (jsonParse : String → Option Args) (reg : ToolRegistry)
    (active : List String) (tc : PendingToolCall) : ToolExecOut :=
  let result := reg.execute tc.name (safeParseArgs jsonParse tc.args)
  let resultContent := renderResultContent result
  let isError := !result.success
  { emitted := [.toolExecuting tc.id tc.name, .toolResult tc.id tc.name resultContent isError]
    block := .toolResult tc.id resultContent isError
    active := expandActiveAfterTool jsonParse reg active tc }

/-- `AgentRunner.buildAssistantBlocks` (part_004 lines 302-319): an optional
text block followed by one `tool_use` block per pending call. -/
def buildAssistantBlocks (jsonParse : String → Option Args) (fullText : String)
    (pending : List PendingToolCall) : List ContentBlock :=
  (if fullText == "" then [] else [.text fullText]) ++
    pending.map (fun tc => .toolUse tc.id tc.name (safeParseArgs jsonParse tc.args))

/-- Output of one tool round (`AgentRunner.processToolCalls`). -/
structure ToolRoundOut where
  emitted : List LLMChunk
  assistantBlocks : List ContentBlock
  resultBlocks : List ContentBlock
  active : List String
deriving Repr

/-- The sequential `for (const tc of pendingToolCalls)` fold of
`processToolCalls` (part_004 lines 231-235): calls execute strictly in the
order the model emitted them, threading the active set through. -/
def toolCallsFold (jsonParse : String → Option Args) (reg : ToolRegistry)
    (pending : List PendingToolCall)
    (acc : List LLMChunk × List ContentBlock × List String) :
    List LLMChunk × List ContentBlock × List String :=
  pending.foldl
    (fun acc tc =>
      let out := executeTool jsonParse reg acc.2.2 tc
      (acc.1 ++ out.emitted, acc.2.1 ++ [out.block], out.active))
    acc

/-- `AgentRunner.processToolCalls` (part_004 lines 211-249): build and persist
the assistant blocks, execute every pending call sequentially, persist the
tool-result blocks (persistence is a side effect on the external store and is
not modelled), and hand back the two block lists to append to history. -/
def processToolCalls (jsonParse : String → Option Args) (reg : ToolRegistry)
    (fullText : String) (pending : List PendingToolCall) (active : List String) :
    ToolRoundOut :=
  let assistantBlocks := buildAssistantBlocks jsonParse fullText pending
  let folded := toolCallsFold jsonParse reg pending ([], [], active)
  { emitted := folded.1
    assistantBlocks := assistantBlocks
    resultBlocks := folded.2.1
    active := folded.2.2 }

/-- The mutable state of one `AgentRunner.stream` execution: the growing
message history, the active tool-name set, and the accumulated usage. -/
structure StreamState where
  messages : List LLMMessage
  active : List String
  usageIn : Nat := 0
  usageOut : Nat := 0

/-- Full output of a run of the `while (true)` loop of `AgentRunner.stream`:
the yielded chunk sequence, and the stream state at the entry of every round
that began (head = the initial state). -/
structure StreamOut where
  chunks : List LLMChunk
  states : List StreamState

/-- The `while (true)` loop of `AgentRunner.stream` (part_004 lines 100-118),
driven by a finite script of model-call outcomes (one per round; the script
runs out only if the loop would have called the model again).  Each round:
call the model; on a caught throw break immediately after the `error` chunk;
on pending tool calls execute them, append the assistant/tool-result message
pair to history, and continue; otherwise yield `done` with cumulative usage
and stop. -/
def streamRun (jsonParse : String → Option Args) (reg : ToolRegistry) :
    List ModelCall → StreamState → StreamOut
  | [], st => { chunks := [], states := [st] }
  | mc :: rest, st =>
    let co := runModelCall mc
    if co.hadError then { chunks := co.emitted, states := [st] }
    else if co.hasPending && !co.pending.isEmpty then
      let tr := processToolCalls jsonParse reg co.fullText co.pending st.active
      let st' : StreamState :=
        { messages := st.messages ++
            [⟨.assistant, .blocks tr.assistantBlocks⟩, ⟨.user, .blocks tr.resultBlocks⟩]
          active := tr.active
          usageIn := st.usageIn + co.usageIn
          usageOut := st.usageOut + co.usageOut }
      let next := streamRun jsonParse reg rest st'
      { chunks := co.emitted ++ tr.emitted ++ next.chunks
        states := st :: next.states }
    else
      { chunks := co.emitted ++ [.done (some ⟨st.usageIn + co.usageIn, st.usageOut + co.usageOut⟩)]
        states := [st] }

/-- A model round that continues the loop: the stream returned normally, the
model signalled `tool_calls_pending`, and at least one call was buffered. -/
def ToolRoundCall (mc : ModelCall) : Prop :=
  mc.callEnd = .normal ∧ (runModelCall mc).hasPending = true ∧ (runModelCall mc).pending ≠ []

/-! ### Helper definitions for the theorems: spelled-out round outputs and
concrete witness fixtures -/

/-- A tool whose execution function always throws, for the C3 witness. -/
def throwingTool : Tool :=
  { name := "boom", description := "always throws", run := fun _ => .throwErr "kaboom" }

/-- Registry holding only `throwingTool`. -/
def wRegistryC3 : ToolRegistry := ⟨[throwingTool]⟩

/-- The provider used for the C5 counterexample and witness. -/
def cexPlugin : LLMPlugin := ⟨"anthropic", [⟨"claude-sonnet", .standard⟩]⟩

/-- Tool for the C4/C6 witness registries: discoverable by the token "file". -/
def wReadFile : Tool :=
  { name := "read_file", description := "Read the contents of a file"
    run := fun _ => .returns { success := true, data := "contents" } }

/-- Tool for the C4 witness registry: no "file" hit. -/
def wCalc : Tool :=
  { name := "calculate", description := "Evaluate a math expression"
    run := fun _ => .returns { success := true, data := "42" } }

/-- Tool for the C4 witness registry: second "file" hit, registered later. -/
def wWriteFile : Tool :=
  { name := "write_file", description := "Write content to a file"
    run := fun _ => .returns { success := true, data := "ok" } }

/-- The C4 witness registry. -/
def wRegC4 : ToolRegistry := ⟨[wReadFile, wCalc, wWriteFile]⟩

/-- The pending calls a chunk list contributes (one per `tool_call_end`). -/
def extractPending : List LLMChunk → List PendingToolCall
  | [] => []
  | .toolCallEnd id name args :: cs => ⟨id, name, args.getD "\x7b\x7d"⟩ :: extractPending cs
  | _ :: cs => extractPending cs

/-- The chunks `callLLM` yields downstream: everything except `done` chunks
carrying usage. -/
def yieldedChunks : List LLMChunk → List LLMChunk
  | [] => []
  | .done (some _) :: cs => yieldedChunks cs
  | c :: cs => c :: yieldedChunks cs

/-- The `tool_result` block `executeTool` returns for one call — independent
of the active set threaded through the round. -/
def resultBlockFor (jsonParse : String → Option Args) (reg : ToolRegistry)
    (tc : PendingToolCall) : ContentBlock :=
  .toolResult tc.id
    (renderResultContent (reg.execute tc.name (safeParseArgs jsonParse tc.args)))
    (!(reg.execute tc.name (safeParseArgs jsonParse tc.args)).success)

/-- The two chunks `executeTool` yields for one call. -/
def toolChunkPair (jsonParse : String → Option Args) (reg : ToolRegistry)
    (tc : PendingToolCall) : List LLMChunk :=
  [.toolExecuting tc.id tc.name,
   .toolResult tc.id tc.name
     (renderResultContent (reg.execute tc.name (safeParseArgs jsonParse tc.args)))
     (!(reg.execute tc.name (safeParseArgs jsonParse tc.args)).success)]

/-- The state the loop carries into the round after a tool round. -/
def nextStreamState (jsonParse : String → Option Args) (reg : ToolRegistry)
    (mc : ModelCall) (st : StreamState) : StreamState :=
  { messages := st.messages ++
      [⟨.assistant, .blocks (processToolCalls jsonParse reg (runModelCall mc).fullText
          (runModelCall mc).pending st.active).assistantBlocks⟩,
       ⟨.user, .blocks (processToolCalls jsonParse reg (runModelCall mc).fullText
          (runModelCall mc).pending st.active).resultBlocks⟩]
    active := (processToolCalls jsonParse reg (runModelCall mc).fullText
      (runModelCall mc).pending st.active).active
    usageIn := st.usageIn + (runModelCall mc).usageIn
    usageOut := st.usageOut + (runModelCall mc).usageOut }

/-- A concrete tool round for the C1/C2 witnesses: one `calculate` call. -/
def wMcTool : ModelCall :=
  ⟨[.text "Let me check", .toolCallEnd "t1" "calculate" (some "\x7b\x7d"),
    .toolCallsPending, .done (some ⟨5, 7⟩)], .normal⟩

/-- A concrete mid-stream throw for the C1 witness. -/
def wMcThrow : ModelCall := ⟨[.text "partial answer"], .throwErr "network failure"⟩

/-- A concrete initial stream state for the C1 witness. -/
def wState : StreamState := { messages := [⟨.user, .str "hi"⟩], active := ["calculate"] }

/-- The discovery tool itself, for the C6 witness registry. -/
def wSearchTools : Tool :=
  { name := "search_tools", description := "Search available capabilities by keyword"
    run := fun _ => .returns { success := true, data := "Found 1 tool(s)" } }

/-- The C6 witness registry: the discovery tool plus one discoverable tool. -/
def wRegC6 : ToolRegistry := ⟨[wSearchTools, wReadFile]⟩

/-- A concrete `search_tools` round for the C6 witness. -/
def wMcSearch : ModelCall :=
  ⟨[.toolCallEnd "s1" "search_tools" (some "q"), .toolCallsPending], .normal⟩

/-- The `while (true)` loop of `ChatHandler.createStreamResponse`
(chat-handler.ts lines 119-154) at chunk level — the inline copy of the
tool-call loop used by the attached chat path.  Its `callLLM` (lines 172-234)
accumulates chunks exactly like the runner's (modelled by `runModelCall`),
including the catch that yields the `error` chunk, but sets no error flag:
control always falls through to the pending-tool-calls test and, with no
executable calls, to the final `done` chunk.  The tool branch contributes no
chunks to the stream: the source invokes its async generator `executeTools`
with `await` rather than `yield*` (line 137), so the generator body never
runs; the loop state visible in the chunk stream therefore reduces to the
usage accumulator. -/
def chatCreateStreamResponse : List ModelCall → Nat → Nat → List LLMChunk
  | [], _, _ => []
  | mc :: rest, uin, uout =>
    let co := runModelCall mc
    if co.hasPending && !co.pending.isEmpty then
      co.emitted ++ chatCreateStreamResponse rest (uin + co.usageIn) (uout + co.usageOut)
    else
      co.emitted ++ [.done (some ⟨uin + co.usageIn, uout + co.usageOut⟩)]

/-! ## Theorems -/

/-! ### C3 — ToolRegistry.execute fails closed -/

/-- C3: for every tool name and input, `ToolRegistry.execute` returns a
structured result and never raises (totality is inherent in the embedding): an
unregistered name yields `success := false` with `Tool "<name>" not found`,
a thrown exception is converted to the same failure shape with the error's
message (or `"Unknown error"` for a non-`Error` throw), and a normally
returned result is passed through. -/
theorem toolRegistry_execute_fails_closed
    (reg : ToolRegistry) (name : String) (args : Args) :
    (reg.find? name = none →
      reg.execute name args =
        { success := false, error := "Tool \"" ++ name ++ "\" not found" }) ∧
    (∀ t, reg.find? name = some t →
      (∀ r, t.run args = .returns r → reg.execute name args = r) ∧
      (∀ m, t.run args = .throwErr m →
        reg.execute name args = { success := false, error := m }) ∧
      (t.run args = .throwOther →
        reg.execute name args = { success := false, error := "Unknown error" })) := by
  refine ⟨fun h => ?_, fun t ht => ⟨fun r hr => ?_, fun m hm => ?_, fun ho => ?_⟩⟩ <;>
    simp [ToolRegistry.execute, *]

/-- C3 witness: concrete unknown-name and thrown-exception executions. -/
theorem toolRegistry_execute_fails_closed_witness :
    wRegistryC3.execute "missing" [] =
      { success := false, error := "Tool \"missing\" not found" } ∧
    wRegistryC3.execute "boom" [] = { success := false, error := "kaboom" } := by
  constructor
  · exact (toolRegistry_execute_fails_closed wRegistryC3 "missing" []).1 rfl
  · exact ((toolRegistry_execute_fails_closed wRegistryC3 "boom" []).2
      throwingTool rfl).2.1 "kaboom" rfl

/-! ### C8 — scheduler firing transitions -/

/-- C8: when the scheduler fires a due task, a recurring task keeps status
`active` and receives a next-run timestamp strictly greater than the firing
time, while a one-shot task transitions to `completed` with its next-run
cleared and can never again satisfy the due-check filter
(`status = 'active' AND next_run_at <= now`). -/
theorem scheduler_fire_transitions (t : ScheduledTask) (now : Int) :
    (t.type = .recurring →
      (t.fireUpdate now).status = .active ∧
      ∃ n, (t.fireUpdate now).nextRunAt = some n ∧ now < n) ∧
    (t.type = .one_shot →
      (t.fireUpdate now).status = .completed ∧
      (t.fireUpdate now).nextRunAt = none ∧
      ∀ later : Int, (t.fireUpdate now).isDue later = false) := by
  constructor
  · intro h
    refine ⟨?_, now + 60000, ?_, by omega⟩ <;> simp [ScheduledTask.fireUpdate, h]
  · intro h
    refine ⟨?_, ?_, fun later => ?_⟩ <;>
      simp [ScheduledTask.fireUpdate, ScheduledTask.isDue, h]

/-- C8 witness: a concrete recurring task and a concrete one-shot task fired
at time 100. -/
theorem scheduler_fire_transitions_witness :
    ((⟨"r", .recurring, .active, some 90, none⟩ : ScheduledTask).fireUpdate 100).status =
        .active ∧
    (∃ n, ((⟨"r", .recurring, .active, some 90, none⟩ : ScheduledTask).fireUpdate 100).nextRunAt =
        some n ∧ (100 : Int) < n) ∧
    ((⟨"o", .one_shot, .active, some 90, none⟩ : ScheduledTask).fireUpdate 100).status =
        .completed ∧
    ((⟨"o", .one_shot, .active, some 90, none⟩ : ScheduledTask).fireUpdate 100).nextRunAt =
        none ∧
    ((⟨"o", .one_shot, .active, some 90, none⟩ : ScheduledTask).fireUpdate 100).isDue 500 =
        false := by
  obtain ⟨h1, h2⟩ := (scheduler_fire_transitions ⟨"r", .recurring, .active, some 90, none⟩ 100).1 rfl
  obtain ⟨h3, h4, h5⟩ := (scheduler_fire_transitions ⟨"o", .one_shot, .active, some 90, none⟩ 100).2 rfl
  exact ⟨h1, h2, h3, h4, h5 500⟩

/-! ### C10 — safeParseArgs is total and keeps the loop alive -/

/-- C10: `safeParseArgs` is total (it is a Lean function, so it cannot raise):
it returns the empty object for empty/whitespace-only input and for input the
JSON parser rejects, and the parsed object otherwise.  Consequently a pending
tool call whose argument JSON is malformed still goes through `executeTool`
normally — the registry execution is invoked with the empty argument object
and the round still yields its `tool_executing` and `tool_result` chunks, so
the tool-call loop is not aborted. -/
theorem safeParseArgs_total_loop_safe
    (jsonParse : String → Option Args) (raw : String) :
    ((jsTrim raw).length = 0 → safeParseArgs jsonParse raw = []) ∧
    (jsonParse raw = none → safeParseArgs jsonParse raw = []) ∧
    (∀ o, (jsTrim raw).length ≠ 0 → jsonParse raw = some o →
      safeParseArgs jsonParse raw = o) ∧
    (∀ (reg : ToolRegistry) (active : List String) (tc : PendingToolCall),
      jsonParse tc.args = none →
      (executeTool jsonParse reg active tc).emitted =
        [.toolExecuting tc.id tc.name,
         .toolResult tc.id tc.name (renderResultContent (reg.execute tc.name []))
           (!(reg.execute tc.name []).success)] ∧
      (executeTool jsonParse reg active tc).block =
        .toolResult tc.id (renderResultContent (reg.execute tc.name []))
          (!(reg.execute tc.name []).success)) := by
  have hparse : ∀ s, jsonParse s = none → safeParseArgs jsonParse s = [] := by
    intro s hs
    unfold safeParseArgs
    rw [hs]
    split <;> rfl
  refine ⟨fun h => ?_, hparse raw, fun o h1 h2 => ?_, fun reg active tc h => ?_⟩
  · simp [safeParseArgs, h]
  · simp [safeParseArgs, h1, h2]
  · rw [show (executeTool jsonParse reg active tc).emitted =
        [.toolExecuting tc.id tc.name,
         .toolResult tc.id tc.name
           (renderResultContent (reg.execute tc.name (safeParseArgs jsonParse tc.args)))
           (!(reg.execute tc.name (safeParseArgs jsonParse tc.args)).success)] from rfl,
      show (executeTool jsonParse reg active tc).block =
        .toolResult tc.id
          (renderResultContent (reg.execute tc.name (safeParseArgs jsonParse tc.args)))
          (!(reg.execute tc.name (safeParseArgs jsonParse tc.args)).success) from rfl,
      hparse tc.args h]
    exact ⟨rfl, rfl⟩

/-- C10 witness: a parser that rejects `"oops"`, a registry with one tool that
answers `"ok"` on empty arguments; the malformed call still produces its two
chunks and invokes the tool with `[]`. -/
theorem safeParseArgs_total_loop_safe_witness :
    safeParseArgs (fun _ => none) "   " = [] ∧
    safeParseArgs (fun _ => none) "oops" = [] ∧
    (executeTool (fun _ => none) ⟨[⟨"echo", "echoes", none,
        fun _ => .returns { success := true, data := "ok" }⟩]⟩ [] ⟨"c1", "echo", "oops"⟩).emitted =
      [.toolExecuting "c1" "echo", .toolResult "c1" "echo" "ok" false] := by
  have h := safeParseArgs_total_loop_safe (fun _ => none) "oops"
  have h2 := (h.2.2.2 ⟨[⟨"echo", "echoes", none,
      fun _ => .returns { success := true, data := "ok" }⟩]⟩ [] ⟨"c1", "echo", "oops"⟩ rfl).1
  refine ⟨(safeParseArgs_total_loop_safe (fun _ => none) "   ").1 (by decide),
    h.2.1 rfl, ?_⟩
  rw [h2]
  rfl

/-! ### C9 — replayed history begins with a user message -/

/-- Row conversion keeps a leading user row in the lead: user rows are never
dropped and never re-rolled. -/
theorem rowsToMessages_head_user (rows : List MessageRow)
    (hfirst : ∀ r rest, rows = r :: rest → r.role = .user) :
    rowsToMessages rows = [] ∨
    ∃ m rest, rowsToMessages rows = m :: rest ∧ m.role = Role.user := by
  match rows with
  | [] => exact Or.inl rfl
  | r :: rest =>
    have hr : r.role = .user := hfirst r rest rfl
    right
    match htc : r.toolCalls with
    | some blocks =>
      refine ⟨⟨.user, .blocks blocks⟩, rowsToMessages rest, ?_, rfl⟩
      simp [rowsToMessages, htc, hr]
    | none =>
      refine ⟨⟨.user, .str r.content⟩, rowsToMessages rest, ?_, rfl⟩
      simp [rowsToMessages, htc, hr]

/-- The trailing fixup loop leaves either nothing or a user-led list —
because `firstMsg` is read once, a non-user head drains the whole list. -/
theorem fixLeadingUser_spec (kept : List LLMMessage) :
    fixLeadingUser kept = [] ∨
    ∃ m rest, fixLeadingUser kept = m :: rest ∧ m.role = Role.user := by
  match kept with
  | [] => exact Or.inl rfl
  | m :: rest =>
    by_cases h : m.role = Role.user
    · exact Or.inr ⟨m, rest, by simp [fixLeadingUser, h], h⟩
    · exact Or.inl (by simp [fixLeadingUser, h])

/-- C9: the history `loadHistory` replays to the model — row conversion
followed by `truncateHistory` with the 400 000-character budget — begins with
a `user`-role message whenever it is non-empty, for every conversation whose
stored rows start with the user message that created it; this includes
histories that exceed the truncation budget (where the budget path guarantees
it unconditionally). -/
theorem loadHistory_starts_with_user
    (blocksLen : List ContentBlock → Nat) (rows : List MessageRow)
    (hfirst : ∀ r rest, rows = r :: rest → r.role = .user) :
    ChatHandler.loadHistory blocksLen rows = [] ∨
    ∃ m rest, ChatHandler.loadHistory blocksLen rows = m :: rest ∧
      m.role = Role.user := by
  have hgoal : ChatHandler.loadHistory blocksLen rows =
      if (List.map (msgCharLen blocksLen) (rowsToMessages rows)).sum ≤ MAX_HISTORY_CHARS
      then rowsToMessages rows
      else fixLeadingUser
        (keepRecent blocksLen MAX_HISTORY_CHARS (rowsToMessages rows).reverse 0 []) := rfl
  rw [hgoal]
  by_cases h :
      (List.map (msgCharLen blocksLen) (rowsToMessages rows)).sum ≤ MAX_HISTORY_CHARS
  · rw [if_pos h]; exact rowsToMessages_head_user rows hfirst
  · rw [if_neg h]; exact fixLeadingUser_spec _

/-- C9 witness: a one-row conversation starting with its user message. -/
theorem loadHistory_starts_with_user_witness :
    ChatHandler.loadHistory (fun _ => 0) [⟨.user, "hi", none⟩] = [] ∨
    ∃ m rest, ChatHandler.loadHistory (fun _ => 0) [⟨.user, "hi", none⟩] = m :: rest ∧
      m.role = Role.user := by
  exact loadHistory_starts_with_user (fun _ => 0) [⟨.user, "hi", none⟩]
    (by intro r rest h; cases h; rfl)

/-! ### C7 — reconnection replays only the current turn -/

/-- A `none` scan means no element satisfies the predicate. -/
theorem scanFirstIdx_eq_none {p : LLMChunk → Bool} :
    ∀ {l : List LLMChunk}, scanFirstIdx p l = none → ∀ c ∈ l, p c = false := by
  intro l
  induction l with
  | nil => intro _ c hc; cases hc
  | cons c cs ih =>
    intro h d hd
    unfold scanFirstIdx at h
    by_cases hc : p c
    · rw [if_pos hc] at h; cases h
    · rw [if_neg hc] at h
      rcases List.mem_cons.mp hd with rfl | hd
      · simpa using hc
      · exact ih (Option.map_eq_none'.mp h) d hd

/-- A `some k` scan splits the list at the first satisfying element. -/
theorem scanFirstIdx_eq_some {p : LLMChunk → Bool} :
    ∀ {l : List LLMChunk} {k : Nat}, scanFirstIdx p l = some k →
      ∃ u x v, l = u ++ x :: v ∧ u.length = k ∧ p x = true ∧ ∀ y ∈ u, p y = false := by
  intro l
  induction l with
  | nil => intro k h; simp [scanFirstIdx] at h
  | cons c cs ih =>
    intro k h
    unfold scanFirstIdx at h
    by_cases hc : p c
    · rw [if_pos hc] at h
      injection h with h0
      exact ⟨[], c, cs, rfl, h0, hc, by intro y hy; cases hy⟩
    · rw [if_neg hc] at h
      obtain ⟨k', hk', hkk⟩ := Option.map_eq_some'.mp h
      obtain ⟨u, x, v, hl, hlen, hx, hu⟩ := ih hk'
      refine ⟨c :: u, x, v, by simp [hl], by simp [hlen, ← hkk], hx, ?_⟩
      intro y hy
      rcases List.mem_cons.mp hy with rfl | hy
      · simpa using hc
      · exact hu y hy

/-- The backwards scan splits the buffer after its last `tool_result`. -/
theorem lastToolResultSucc_split (cs : List LLMChunk) :
    ∃ a, cs = a ++ cs.drop (lastToolResultSucc cs) ∧
      a.length = lastToolResultSucc cs ∧
      (∀ c ∈ cs.drop (lastToolResultSucc cs), c.isToolResultType = false) ∧
      (a = [] ∨ ∃ a0 c, a = a0 ++ [c] ∧ c.isToolResultType = true) := by
  rcases hscan : scanFirstIdx LLMChunk.isToolResultType cs.reverse with _ | k
  · have h0 : lastToolResultSucc cs = 0 := by simp [lastToolResultSucc, hscan]
    refine ⟨[], by simp [h0], by simp [h0], ?_, Or.inl rfl⟩
    intro c hc
    exact scanFirstIdx_eq_none hscan c (by simpa [h0, List.mem_reverse] using hc)
  · obtain ⟨u, x, v, hl, hlen, hx, hu⟩ := scanFirstIdx_eq_some hscan
    have hcs : cs = (v.reverse ++ [x]) ++ u.reverse := by
      have := congrArg List.reverse hl
      simpa [List.reverse_append] using this
    have hlencs : cs.length = k + 1 + v.length := by
      have := congrArg List.length hl
      simp at this
      omega
    have hstart : lastToolResultSucc cs = v.length + 1 := by
      simp only [lastToolResultSucc, hscan]
      omega
    have hdrop : cs.drop (lastToolResultSucc cs) = u.reverse := by
      rw [hstart, hcs]
      have : v.length + 1 = (v.reverse ++ [x]).length := by simp
      rw [this, List.drop_left]
    refine ⟨v.reverse ++ [x], ?_, ?_, ?_, Or.inr ⟨v.reverse, x, rfl, hx⟩⟩
    · rw [hdrop]; exact hcs
    · simp [hstart]
    · intro c hc
      rw [hdrop] at hc
      exact hu c (by simpa [List.mem_reverse] using hc)

/-- The turn boundary splits the buffer into completed turns (ending at the
last `tool_result`), a gap with neither turn-start nor `tool_result` chunks,
and the replayed current turn. -/
theorem currentTurnStart_split (cs : List LLMChunk) :
    ∃ a b, cs = a ++ b ++ cs.drop (getCurrentTurnStartIndex cs) ∧
      (∀ c ∈ b, c.isTurnStartType = false ∧ c.isToolResultType = false) ∧
      (∀ c ∈ cs.drop (getCurrentTurnStartIndex cs), c.isToolResultType = false) ∧
      (a = [] ∨ ∃ a0 c, a = a0 ++ [c] ∧ c.isToolResultType = true) ∧
      (cs.drop (getCurrentTurnStartIndex cs) = [] ∨
        ∃ c cs', cs.drop (getCurrentTurnStartIndex cs) = c :: cs' ∧
          c.isTurnStartType = true) := by
  obtain ⟨a, hcs, halen, hnotr, halast⟩ := lastToolResultSucc_split cs
  rcases hscan : scanFirstIdx LLMChunk.isTurnStartType
      (cs.drop (lastToolResultSucc cs)) with _ | j
  · have hidx : getCurrentTurnStartIndex cs = cs.length := by
      simp [getCurrentTurnStartIndex, hscan]
    have hrep : cs.drop (getCurrentTurnStartIndex cs) = [] := by
      rw [hidx, List.drop_length]
    refine ⟨a, cs.drop (lastToolResultSucc cs), ?_, ?_, ?_, halast, Or.inl hrep⟩
    · rw [hrep, List.append_nil]; exact hcs
    · intro c hc
      exact ⟨scanFirstIdx_eq_none hscan c hc, hnotr c hc⟩
    · rw [hrep]; intro c hc; cases hc
  · obtain ⟨b, y, w, hsplit, hblen, hy, hb⟩ := scanFirstIdx_eq_some hscan
    have hidx : getCurrentTurnStartIndex cs = lastToolResultSucc cs + j := by
      simp [getCurrentTurnStartIndex, hscan]
    have hrep : cs.drop (getCurrentTurnStartIndex cs) = y :: w := by
      rw [hidx, ← List.drop_drop]
      rw [hsplit, ← hblen, List.drop_left]
    refine ⟨a, b, ?_, ?_, ?_, halast, Or.inr ⟨y, w, hrep, hy⟩⟩
    · rw [hrep]
      conv_lhs => rw [hcs, hsplit]
      simp
    · intro c hc
      refine ⟨hb c hc, hnotr c ?_⟩
      rw [hsplit]
      exact List.mem_append_left _ hc
    · intro c hc
      rw [hrep] at hc
      apply hnotr c
      rw [hsplit]
      exact List.mem_append_right _ hc

/-- C7: `subscribeFromCurrentTurn` on a completed execution returns
immediately with no replay and registers nothing; on an in-progress execution
it registers the callback and replays exactly the buffered suffix from the
turn boundary — the first `text` or `tool_call_start` chunk after the most
recent `tool_result` chunk (the replayed part starts with such a chunk and
contains no `tool_result`; everything skipped either precedes the last
`tool_result` or is a gap without turn-start chunks; when no such chunk
exists after the last `tool_result`, nothing is replayed). -/
theorem subscribeFromCurrentTurn_spec :
    (∀ cs : List LLMChunk, subscribeFromCurrentTurn (some ⟨cs, true⟩) = ([], false)) ∧
    (∀ cs : List LLMChunk, ∃ replay a b,
      subscribeFromCurrentTurn (some ⟨cs, false⟩) = (replay, true) ∧
      cs = a ++ b ++ replay ∧
      (∀ c ∈ b, c.isTurnStartType = false ∧ c.isToolResultType = false) ∧
      (∀ c ∈ replay, c.isToolResultType = false) ∧
      (a = [] ∨ ∃ a0 c, a = a0 ++ [c] ∧ c.isToolResultType = true) ∧
      (replay = [] ∨ ∃ c cs', replay = c :: cs' ∧ c.isTurnStartType = true)) := by
  constructor
  · intro cs; rfl
  · intro cs
    obtain ⟨a, b, hsplit, hb, hrep, hlast, hhead⟩ := currentTurnStart_split cs
    exact ⟨cs.drop (getCurrentTurnStartIndex cs), a, b, rfl, hsplit, hb, hrep, hlast, hhead⟩

/-! ### C5 — routing priority -/

/-- A failed tier scan means no registered model carries the tier. -/
theorem findByTier_none (plugins : List LLMPlugin) (tier : ModelTier) :
    findByTier plugins tier = none → ∀ p ∈ plugins, ∀ m ∈ p.models, m.tier ≠ tier := by
  induction plugins with
  | nil => intro _ p hp; cases hp
  | cons q rest ih =>
    intro h p hp m hm
    unfold findByTier at h
    rcases hq : q.models.find? (fun m => m.tier == tier) with _ | r
    · rw [hq] at h
      rcases List.mem_cons.mp hp with rfl | hp
      · have := List.find?_eq_none.mp hq m hm
        simpa using this
      · exact ih h p hp m hm
    · rw [hq] at h; cases h

/-- A successful tier scan returns a tier-tagged model of the first provider
that has one. -/
theorem findByTier_some (plugins : List LLMPlugin) (tier : ModelTier) (r : RouteResult) :
    findByTier plugins tier = some r →
    ∃ pre suf, plugins = pre ++ r.plugin :: suf ∧
      r.model ∈ r.plugin.models ∧ r.model.tier = tier ∧
      ∀ q ∈ pre, ∀ m ∈ q.models, m.tier ≠ tier := by
  induction plugins with
  | nil => intro h; cases h
  | cons q rest ih =>
    intro h
    unfold findByTier at h
    rcases hq : q.models.find? (fun m => m.tier == tier) with _ | m
    · rw [hq] at h
      obtain ⟨pre, suf, hps, hm, ht, hpre⟩ := ih h
      refine ⟨q :: pre, suf, by simp [hps], hm, ht, ?_⟩
      intro q' hq' m' hm'
      rcases List.mem_cons.mp hq' with rfl | hq'
      · have := List.find?_eq_none.mp hq m' hm'
        simpa using this
      · exact hpre q' hq' m' hm'
    · rw [hq] at h
      injection h with h
      subst h
      refine ⟨[], rest, rfl, List.mem_of_find?_eq_some hq, ?_, by intro q' hq'; cases hq'⟩
      have := List.find?_some hq
      simpa using this

/-- A failed model-id scan means no non-skipped provider has the model. -/
theorem findByModelId_none (plugins : List LLMPlugin) (pid : Option String) (midm : String) :
    findByModelId plugins pid midm = none →
    ∀ p ∈ plugins, providerMismatch pid p.id = false → ∀ m ∈ p.models, m.id ≠ midm := by
  induction plugins with
  | nil => intro _ p hp; cases hp
  | cons q rest ih =>
    intro h p hp hmm m hm
    unfold findByModelId at h
    rcases hskip : providerMismatch pid q.id with _ | _
    · simp only [hskip, Bool.false_eq_true, if_false] at h
      rcases hq : q.models.find? (fun m => m.id == midm) with _ | r
      · rw [hq] at h
        rcases List.mem_cons.mp hp with rfl | hp
        · have := List.find?_eq_none.mp hq m hm
          simpa using this
        · exact ih h p hp hmm m hm
      · rw [hq] at h; cases h
    · simp only [hskip, if_true] at h
      rcases List.mem_cons.mp hp with rfl | hp
      · rw [hmm] at hskip; cases hskip
      · exact ih h p hp hmm m hm

/-- A successful model-id scan returns an exact id match from a non-skipped
provider. -/
theorem findByModelId_some (plugins : List LLMPlugin) (pid : Option String)
    (midm : String) (r : RouteResult) :
    findByModelId plugins pid midm = some r →
    r.plugin ∈ plugins ∧ providerMismatch pid r.plugin.id = false ∧
    r.model ∈ r.plugin.models ∧ r.model.id = midm := by
  induction plugins with
  | nil => intro h; cases h
  | cons q rest ih =>
    intro h
    unfold findByModelId at h
    rcases hskip : providerMismatch pid q.id with _ | _
    · simp only [hskip, Bool.false_eq_true, if_false] at h
      rcases hq : q.models.find? (fun m => m.id == midm) with _ | m
      · rw [hq] at h
        obtain ⟨h1, h2, h3, h4⟩ := ih h
        exact ⟨List.mem_cons_of_mem q h1, h2, h3, h4⟩
      · rw [hq] at h
        injection h with h
        subst h
        refine ⟨List.mem_cons_self q rest, hskip, List.mem_of_find?_eq_some hq, ?_⟩
        have := List.find?_some hq
        simpa using this
    · simp only [hskip, if_true] at h
      obtain ⟨h1, h2, h3, h4⟩ := ih h
      exact ⟨List.mem_cons_of_mem q h1, h2, h3, h4⟩

/-- C5 counterexample: with one registered provider whose only model id is
`"claude-sonnet"`, routing with the given modelId `""` does not fail as the
claim requires (no provider has a model with id `""`); the JS truthiness test
`if (params?.modelId)` treats `""` as absent, so the call falls through to
tier routing and succeeds. -/
theorem route_blank_modelId_counterexample :
    (∀ m ∈ cexPlugin.models, m.id ≠ "") ∧
    ModelRouter.route [cexPlugin] { modelId := some "" } =
      .ok ⟨cexPlugin, ⟨"claude-sonnet", .standard⟩⟩ := by
  constructor
  · decide
  · rfl

/-- C5 (amended): with zero providers `route` fails with an error; a
*non-empty* `modelId` (split at the first `":"` into an optional provider
prefix and a model id, an empty prefix being ignored like an absent one)
routes to an exact id match on a non-skipped provider and fails when none
exists; an absent — or empty, hence falsy — `modelId` routes to the first
provider holding a model of the requested tier (default `standard`), and
otherwise falls back to the first model of the first provider (an error when
that provider has no models). -/
theorem modelRouter_route_spec (plugins : List LLMPlugin) (params : RouteParams) :
    (plugins = [] →
      ModelRouter.route plugins params =
        .error "No LLM plugins registered. Please configure at least one LLM provider (e.g. set ANTHROPIC_API_KEY).") ∧
    (∀ mid, plugins ≠ [] → params.modelId = some mid → mid ≠ "" →
      ((∃ r, ModelRouter.route plugins params = .ok r ∧
          r.plugin ∈ plugins ∧ r.model ∈ r.plugin.models ∧
          r.model.id = (parseModelId mid).2 ∧
          providerMismatch (parseModelId mid).1 r.plugin.id = false) ∨
        (ModelRouter.route plugins params =
            .error ("Model \"" ++ mid ++ "\" not found in any registered LLM plugin") ∧
          ∀ p ∈ plugins, providerMismatch (parseModelId mid).1 p.id = false →
            ∀ m ∈ p.models, m.id ≠ (parseModelId mid).2))) ∧
    ((params.modelId = none ∨ params.modelId = some "") → ∀ first rest,
      plugins = first :: rest →
      ((∃ pre suf r, plugins = pre ++ r.plugin :: suf ∧
          ModelRouter.route plugins params = .ok r ∧
          r.model ∈ r.plugin.models ∧ r.model.tier = params.tier.getD .standard ∧
          ∀ q ∈ pre, ∀ m ∈ q.models, m.tier ≠ params.tier.getD .standard) ∨
        ((∀ p ∈ plugins, ∀ m ∈ p.models, m.tier ≠ params.tier.getD .standard) ∧
          ((∃ m ms, first.models = m :: ms ∧
              ModelRouter.route plugins params = .ok ⟨first, m⟩) ∨
            (first.models = [] ∧
              ModelRouter.route plugins params =
                .error ("LLM plugin \"" ++ first.id ++ "\" has no models registered")))))) := by
  refine ⟨?_, ?_, ?_⟩
  · intro h
    subst h
    rfl
  · intro mid hne hmid hmne
    have hsel : (match params.modelId with
        | some m => if m == "" then none else some m
        | none => none) = some mid := by
      rw [hmid]
      simp [hmne]
    have hroute : ModelRouter.route plugins params =
        (match findByModelId plugins (parseModelId mid).1 (parseModelId mid).2 with
         | some r => .ok r
         | none => .error ("Model \"" ++ mid ++ "\" not found in any registered LLM plugin")) := by
      unfold ModelRouter.route
      rw [if_neg (by simpa using hne), hsel]
    rcases hf : findByModelId plugins (parseModelId mid).1 (parseModelId mid).2 with _ | r
    · right
      rw [hf] at hroute
      exact ⟨hroute, findByModelId_none plugins _ _ hf⟩
    · left
      obtain ⟨h1, h2, h3, h4⟩ := findByModelId_some plugins _ _ r hf
      rw [hf] at hroute
      exact ⟨r, hroute, h1, h3, h4, h2⟩
  · intro hmid first rest hplug
    subst hplug
    have hsel : (match params.modelId with
        | some m => if m == "" then none else some m
        | none => none) = none := by
      rcases hmid with h | h <;> simp [h]
    have hroute : ModelRouter.route (first :: rest) params =
        (match findByTier (first :: rest) (params.tier.getD .standard) with
         | some r => .ok r
         | none =>
           match first.models with
           | [] => .error ("LLM plugin \"" ++ first.id ++ "\" has no models registered")
           | m :: _ => .ok ⟨first, m⟩) := by
      unfold ModelRouter.route
      rw [if_neg (by simp), hsel]
    rcases hf : findByTier (first :: rest) (params.tier.getD .standard) with _ | r
    · right
      refine ⟨findByTier_none _ _ hf, ?_⟩
      rw [hf] at hroute
      rcases hm : first.models with _ | ⟨m, ms⟩
      · right
        rw [hm] at hroute
        exact ⟨rfl, hroute⟩
      · left
        rw [hm] at hroute
        exact ⟨m, ms, rfl, hroute⟩
    · left
      obtain ⟨pre, suf, hps, hmm, ht, hpre⟩ := findByTier_some _ _ r hf
      rw [hf] at hroute
      exact ⟨pre, suf, r, hps, hroute, hmm, ht, hpre⟩

/-- C5 witness: the zero-provider error and an exact-match route, both at
concrete inputs. -/
theorem modelRouter_route_spec_witness :
    ModelRouter.route [] {} =
      .error "No LLM plugins registered. Please configure at least one LLM provider (e.g. set ANTHROPIC_API_KEY)." ∧
    ModelRouter.route [cexPlugin] { modelId := some "claude-sonnet" } =
      .ok ⟨cexPlugin, ⟨"claude-sonnet", .standard⟩⟩ := by
  constructor
  · exact (modelRouter_route_spec [] {}).1 rfl
  · have h := (modelRouter_route_spec [cexPlugin] { modelId := some "claude-sonnet" }).2.1
      "claude-sonnet" (by simp) rfl (by decide)
    rcases h with ⟨r, hok, hp, hm, hid, _⟩ | ⟨_, hall⟩
    · have hp' : r.plugin = cexPlugin := by simpa using hp
      have hm' : r.model = ⟨"claude-sonnet", .standard⟩ := by
        rw [hp'] at hm
        simpa [cexPlugin] using hm
      have : r = ⟨cexPlugin, ⟨"claude-sonnet", .standard⟩⟩ := by
        cases r
        simp_all
      rw [this] at hok
      exact hok
    · exfalso
      exact hall cexPlugin (by simp) (by decide) ⟨"claude-sonnet", .standard⟩
        (by simp [cexPlugin]) (by decide)

/-! ### C4 — tool search scoring, ordering, fallback -/

/-- Generic helper: filtering a mapped list. -/
theorem list_filter_map_eq {α β} (f : α → β) (p : β → Bool) (l : List α) :
    (l.map f).filter p = (l.filter (fun y => p (f y))).map f := by
  induction l with
  | nil => rfl
  | cons y ys ih =>
    by_cases h : p (f y) <;> simp [List.filter_cons, h, ih]

/-- Generic helper: two filters collapse into a conjunction. -/
theorem list_filter_filter_eq {α} (p q : α → Bool) (l : List α) :
    (l.filter p).filter q = l.filter (fun a => p a && q a) := by
  induction l with
  | nil => rfl
  | cons x xs ih =>
    by_cases hp : p x <;> by_cases hq : q x <;> simp [List.filter_cons, hp, hq, ih]

/-- Inserting into the stable descending sort permutes nothing away. -/
theorem insertDesc_perm (x : Tool × Nat) (l : List (Tool × Nat)) :
    List.Perm (insertDesc x l) (x :: l) := by
  induction l with
  | nil => exact List.Perm.refl _
  | cons y ys ih =>
    unfold insertDesc
    by_cases hlt : x.2 < y.2
    · rw [if_pos hlt]
      exact (ih.cons y).trans (List.Perm.swap x y ys)
    · rw [if_neg hlt]

/-- The stable sort is a permutation. -/
theorem sortByHitsDesc_perm (l : List (Tool × Nat)) : List.Perm (sortByHitsDesc l) l := by
  induction l with
  | nil => exact List.Perm.refl _
  | cons x xs ih => exact (insertDesc_perm x _).trans (ih.cons x)

/-- Inserting keeps the score-class subsequences intact: the new element lands
in front of its own score class (elements it skips are strictly higher). -/
theorem insertDesc_filter (x : Tool × Nat) (h : Nat) (l : List (Tool × Nat)) :
    (insertDesc x l).filter (fun y => y.2 == h) =
      (if x.2 = h then [x] else []) ++ l.filter (fun y => y.2 == h) := by
  induction l with
  | nil =>
    by_cases hx : x.2 = h <;> simp [insertDesc, hx]
  | cons y ys ih =>
    unfold insertDesc
    by_cases hlt : x.2 < y.2
    · rw [if_pos hlt]
      by_cases hx : x.2 = h
      · have hy : ¬ y.2 = h := by omega
        simp [List.filter_cons, hx, hy, ih]
      · simp [List.filter_cons, hx, ih]
    · rw [if_neg hlt]
      by_cases hx : x.2 = h <;> simp [List.filter_cons, hx]

/-- The stable sort leaves each score class in its original order. -/
theorem sortByHitsDesc_filter (h : Nat) (l : List (Tool × Nat)) :
    (sortByHitsDesc l).filter (fun y => y.2 == h) = l.filter (fun y => y.2 == h) := by
  induction l with
  | nil => rfl
  | cons x xs ih =>
    rw [show sortByHitsDesc (x :: xs) = insertDesc x (sortByHitsDesc xs) from rfl]
    rw [insertDesc_filter, ih, List.filter_cons]
    by_cases hx : x.2 = h <;> simp [hx]

/-- Insertion preserves descending order by score. -/
theorem insertDesc_sorted (x : Tool × Nat) (l : List (Tool × Nat))
    (hl : l.Pairwise (fun a b => b.2 ≤ a.2)) :
    (insertDesc x l).Pairwise (fun a b => b.2 ≤ a.2) := by
  induction l with
  | nil => simp [insertDesc]
  | cons y ys ih =>
    rcases List.pairwise_cons.mp hl with ⟨hy, hys⟩
    unfold insertDesc
    by_cases hlt : x.2 < y.2
    · rw [if_pos hlt]
      refine List.pairwise_cons.mpr ⟨?_, ih hys⟩
      intro z hz
      rcases List.mem_cons.mp ((insertDesc_perm x ys).mem_iff.mp hz) with rfl | hz
      · omega
      · exact hy z hz
    · rw [if_neg hlt]
      refine List.pairwise_cons.mpr ⟨?_, hl⟩
      intro z hz
      rcases List.mem_cons.mp hz with rfl | hz
      · omega
      · have := hy z hz
        omega

/-- The stable sort is descending by score. -/
theorem sortByHitsDesc_sorted (l : List (Tool × Nat)) :
    (sortByHitsDesc l).Pairwise (fun a b => b.2 ≤ a.2) := by
  induction l with
  | nil => exact List.Pairwise.nil
  | cons x xs ih => exact insertDesc_sorted x _ ih

/-- Every entry of the sorted, score-filtered list is a registered tool
paired with exactly its (positive) score. -/
theorem search_scored_invariant (tools : List Tool) (words : List String) :
    ∀ y ∈ sortByHitsDesc
        ((tools.map (fun t => (t, t.hitCount words))).filter (fun p => 0 < p.2)),
      y.2 = y.1.hitCount words ∧ 0 < y.2 := by
  intro y hy
  have hy' := (sortByHitsDesc_perm _).mem_iff.mp hy
  have hy2 := List.of_mem_filter hy'
  have hy3 := List.mem_of_mem_filter hy'
  obtain ⟨t, _, rfl⟩ := List.mem_map.mp hy3
  exact ⟨rfl, by simpa using hy2⟩

/-- C4: `search` tokenizes the query into lowercase whitespace-separated
words of length > 2 and, when any tokens survive, returns exactly the tools
scoring at least one token hit (a hit is a substring match against the joined
name/description/keywords haystack), sorted by descending score with ties
keeping registration order — stated as: the result is `Pairwise`-descending in
score, contains only positive-score tools, and for every positive score its
score class equals the registration-ordered filter of the registry.  When no
token survives (empty or too-short query) it returns every registered tool in
registration order. -/
theorem toolRegistry_search_spec (reg : ToolRegistry) (query : String) :
    (tokenizeQuery query = [] → reg.search query = reg.tools) ∧
    (tokenizeQuery query ≠ [] →
      (reg.search query).Pairwise
        (fun a b => b.hitCount (tokenizeQuery query) ≤ a.hitCount (tokenizeQuery query)) ∧
      (∀ t ∈ reg.search query, 0 < t.hitCount (tokenizeQuery query)) ∧
      (∀ h, 0 < h →
        (reg.search query).filter (fun t => t.hitCount (tokenizeQuery query) == h) =
          reg.tools.filter (fun t => t.hitCount (tokenizeQuery query) == h))) := by
  constructor
  · intro h
    simp [ToolRegistry.search, h]
  · intro hne
    have hsearch : reg.search query =
        (sortByHitsDesc ((reg.tools.map
          (fun t => (t, t.hitCount (tokenizeQuery query)))).filter
            (fun p => 0 < p.2))).map Prod.fst := by
      rcases hq : tokenizeQuery query with _ | ⟨w, ws⟩
      · exact absurd hq hne
      · unfold ToolRegistry.search
        rw [hq]
        rfl
    have hinv := search_scored_invariant reg.tools (tokenizeQuery query)
    refine ⟨?_, ?_, ?_⟩
    · rw [hsearch, List.pairwise_map]
      refine List.Pairwise.imp_of_mem ?_ (sortByHitsDesc_sorted _)
      intro a b ha hb hab
      have hal := (hinv a ha).1
      have hbl := (hinv b hb).1
      omega
    · intro t ht
      rw [hsearch] at ht
      obtain ⟨y, hy, rfl⟩ := List.mem_map.mp ht
      obtain ⟨h1, h2⟩ := hinv y hy
      omega
    · intro h hpos
      rw [hsearch, list_filter_map_eq]
      have hcongr : (sortByHitsDesc ((reg.tools.map
            (fun t => (t, t.hitCount (tokenizeQuery query)))).filter
              (fun p => 0 < p.2))).filter
            (fun y => y.1.hitCount (tokenizeQuery query) == h) =
          (sortByHitsDesc ((reg.tools.map
            (fun t => (t, t.hitCount (tokenizeQuery query)))).filter
              (fun p => 0 < p.2))).filter (fun y => y.2 == h) := by
        apply List.filter_congr
        intro y hy
        rw [(hinv y hy).1]
      rw [hcongr, sortByHitsDesc_filter, list_filter_filter_eq]
      have hcongr2 : (reg.tools.map
            (fun t => (t, t.hitCount (tokenizeQuery query)))).filter
            (fun a => decide (0 < a.2) && (a.2 == h)) =
          (reg.tools.map (fun t => (t, t.hitCount (tokenizeQuery query)))).filter
            (fun a => a.2 == h) := by
        apply List.filter_congr
        intro y _
        by_cases hyh : y.2 = h
        · simp [hyh, hpos]
        · simp [hyh]
      rw [hcongr2, list_filter_map_eq, List.map_map]
      have hid : (Prod.fst ∘ fun t : Tool => (t, t.hitCount (tokenizeQuery query))) = id := rfl
      rw [hid, List.map_id]

/-- C4 witness: the empty query returns every registered tool, and for the
query `"File query"` the score-1 class keeps registration order. -/
theorem toolRegistry_search_spec_witness :
    wRegC4.search "" = wRegC4.tools ∧
    (wRegC4.search "File query").filter
        (fun t => t.hitCount (tokenizeQuery "File query") == 1) =
      wRegC4.tools.filter (fun t => t.hitCount (tokenizeQuery "File query") == 1) := by
  constructor
  · exact (toolRegistry_search_spec wRegC4 "").1 (by decide)
  · exact ((toolRegistry_search_spec wRegC4 "File query").2 (by decide)).2.2 1 (by decide)

/-! ### Agent-runner round bookkeeping (shared by C1, C2, C6) -/

/-- The chunk fold never sets the error flag (only the catch handler does). -/
theorem foldl_processChunk_hadError (cs : List LLMChunk) (st : CallOut) :
    (cs.foldl processChunk st).hadError = st.hadError := by
  induction cs generalizing st with
  | nil => rfl
  | cons c cs ih =>
    rw [List.foldl_cons, ih]
    cases c
    case done u => cases u <;> rfl
    all_goals rfl

/-- The chunk fold appends exactly the yielded chunks. -/
theorem foldl_processChunk_emitted (cs : List LLMChunk) (st : CallOut) :
    (cs.foldl processChunk st).emitted = st.emitted ++ yieldedChunks cs := by
  induction cs generalizing st with
  | nil => simp [yieldedChunks]
  | cons c cs ih =>
    rw [List.foldl_cons, ih]
    cases c
    case done u =>
      cases u <;> simp [yieldedChunks, processChunk]
    all_goals simp [yieldedChunks, processChunk]

/-- The chunk fold buffers exactly the `tool_call_end` chunks, in order. -/
theorem foldl_processChunk_pending (cs : List LLMChunk) (st : CallOut) :
    (cs.foldl processChunk st).pending = st.pending ++ extractPending cs := by
  induction cs generalizing st with
  | nil => simp [extractPending]
  | cons c cs ih =>
    rw [List.foldl_cons, ih]
    cases c
    case done u => cases u <;> simp [extractPending, processChunk]
    case toolCallEnd id name args => simp [extractPending, processChunk]
    all_goals simp [extractPending, processChunk]

/-- Every yielded chunk was a model chunk. -/
theorem yieldedChunks_subset (cs : List LLMChunk) : ∀ c ∈ yieldedChunks cs, c ∈ cs := by
  induction cs with
  | nil => intro c hc; cases hc
  | cons c cs ih =>
    intro d hd
    cases c
    case done u =>
      cases u with
      | none =>
        rcases List.mem_cons.mp hd with rfl | hd
        · exact List.mem_cons_self _ _
        · exact List.mem_cons_of_mem _ (ih d hd)
      | some _ => exact List.mem_cons_of_mem _ (ih d hd)
    all_goals
      rcases List.mem_cons.mp hd with rfl | hd
    all_goals first
      | exact List.mem_cons_self _ _
      | exact List.mem_cons_of_mem _ (ih d hd)

/-- Skipping usage-`done` chunks does not change counts of predicates that
ignore `done` chunks. -/
theorem countP_yieldedChunks (q : LLMChunk → Bool) (hq : ∀ u, q (.done u) = false)
    (cs : List LLMChunk) : (yieldedChunks cs).countP q = cs.countP q := by
  induction cs with
  | nil => rfl
  | cons c cs ih =>
    cases c
    case done u =>
      cases u with
      | none => simp [yieldedChunks, List.countP_cons, hq, ih]
      | some _ => simp [yieldedChunks, List.countP_cons, hq, ih]
    all_goals simp [yieldedChunks, List.countP_cons, ih]

/-- One buffered pending call per `tool_call_end` chunk. -/
theorem extractPending_length (cs : List LLMChunk) :
    (extractPending cs).length = cs.countP LLMChunk.isToolCallEndType := by
  induction cs with
  | nil => rfl
  | cons c cs ih =>
    cases c <;>
      simp [extractPending, List.countP_cons, LLMChunk.isToolCallEndType, ih]

/-- `runModelCall` on a normal stream end: no error flag, the yielded chunks,
the buffered calls. -/
theorem runModelCall_normal (mc : ModelCall) (h : mc.callEnd = .normal) :
    (runModelCall mc).hadError = false ∧
    (runModelCall mc).emitted = yieldedChunks mc.chunks ∧
    (runModelCall mc).pending = extractPending mc.chunks := by
  unfold runModelCall
  rw [h]
  exact ⟨foldl_processChunk_hadError mc.chunks {},
    by rw [foldl_processChunk_emitted]; rfl,
    by rw [foldl_processChunk_pending]; rfl⟩

/-- `runModelCall` on a thrown stream end: the error flag is set and exactly
one `error` chunk is appended after the yielded chunks. -/
theorem runModelCall_throw (mc : ModelCall) (h : mc.callEnd ≠ .normal) :
    (runModelCall mc).hadError = true ∧
    ∃ msg, (runModelCall mc).emitted = yieldedChunks mc.chunks ++ [.error msg] := by
  unfold runModelCall
  rcases he : mc.callEnd with _ | m | _
  · exact absurd he h
  · refine ⟨rfl, m, ?_⟩
    show (List.foldl processChunk {} mc.chunks).emitted ++ [LLMChunk.error m] =
      yieldedChunks mc.chunks ++ [LLMChunk.error m]
    rw [foldl_processChunk_emitted]
    rfl
  · refine ⟨rfl, "Unknown error", ?_⟩
    show (List.foldl processChunk {} mc.chunks).emitted ++ [LLMChunk.error "Unknown error"] =
      yieldedChunks mc.chunks ++ [LLMChunk.error "Unknown error"]
    rw [foldl_processChunk_emitted]
    rfl

/-- Spelled-out `executeTool` output. -/
theorem executeTool_eq (jsonParse : String → Option Args) (reg : ToolRegistry)
    (active : List String) (tc : PendingToolCall) :
    executeTool jsonParse reg active tc =
      { emitted := toolChunkPair jsonParse reg tc
        block := resultBlockFor jsonParse reg tc
        active := expandActiveAfterTool jsonParse reg active tc } := rfl

/-- `Set.add` only grows the set. -/
theorem addActive_subset (l : List String) (n : String) : l ⊆ addActive l n := by
  unfold addActive
  by_cases h : n ∈ l
  · rw [if_pos h]
    exact fun _ hx => hx
  · rw [if_neg h]
    exact fun x hx => List.mem_append_left _ hx

/-- The added name is in the set. -/
theorem mem_addActive_self (l : List String) (n : String) : n ∈ addActive l n := by
  unfold addActive
  by_cases h : n ∈ l
  · rwa [if_pos h]
  · rw [if_neg h]
    exact List.mem_append_right _ (List.mem_singleton_self n)

/-- Adding a batch of names only grows the set. -/
theorem addAllActive_subset (ns : List String) : ∀ l, l ⊆ addAllActive l ns := by
  induction ns with
  | nil => intro l; exact fun _ h => h
  | cons n ns ih =>
    intro l
    exact (addActive_subset l n).trans (ih (addActive l n))

/-- Every name of the batch ends up in the set. -/
theorem mem_addAllActive (ns : List String) : ∀ (l : List String) (n : String),
    n ∈ ns → n ∈ addAllActive l ns := by
  induction ns with
  | nil => intro l n h; cases h
  | cons m ns ih =>
    intro l n h
    rcases List.mem_cons.mp h with rfl | h
    · exact addAllActive_subset ns _ (mem_addActive_self l n)
    · exact ih _ n h

/-- The post-call expansion only grows the active set. -/
theorem expandActive_subset (jsonParse : String → Option Args) (reg : ToolRegistry)
    (active : List String) (tc : PendingToolCall) :
    active ⊆ expandActiveAfterTool jsonParse reg active tc := by
  unfold expandActiveAfterTool
  by_cases hcond : (tc.name == "search_tools" &&
      (reg.execute tc.name (safeParseArgs jsonParse tc.args)).success) = true
  · rw [if_pos hcond]
    rcases hq : lookupArg (safeParseArgs jsonParse tc.args) "query" with _ | q
    · exact fun _ h => h
    · show active ⊆
        if (q == "") = true then active
        else addAllActive active ((reg.search q).map Tool.name)
      by_cases hqe : (q == "") = true
      · rw [if_pos hqe]
        exact fun _ h => h
      · rw [if_neg hqe]
        exact addAllActive_subset _ active
  · rw [if_neg hcond]
    exact fun _ h => h

/-- A successful `search_tools` call with a truthy query puts every searched
name into the active set. -/
theorem expandActive_search_names (jsonParse : String → Option Args)
    (reg : ToolRegistry) (active : List String) (tc : PendingToolCall) (q : String)
    (hname : tc.name = "search_tools")
    (hsucc : (reg.execute tc.name (safeParseArgs jsonParse tc.args)).success = true)
    (hq : lookupArg (safeParseArgs jsonParse tc.args) "query" = some q)
    (hqne : q ≠ "") :
    ∀ t ∈ reg.search q, t.name ∈ expandActiveAfterTool jsonParse reg active tc := by
  intro t ht
  unfold expandActiveAfterTool
  have hcond : (tc.name == "search_tools" &&
      (reg.execute tc.name (safeParseArgs jsonParse tc.args)).success) = true := by
    rw [hname] at hsucc ⊢
    rw [hsucc]
    simp
  rw [if_pos hcond, hq]
  show t.name ∈
    if (q == "") = true then active
    else addAllActive active ((reg.search q).map Tool.name)
  rw [if_neg (by simpa using hqne)]
  exact mem_addAllActive _ active t.name (List.mem_map_of_mem Tool.name ht)

/-- One step of the sequential tool fold. -/
theorem toolCallsFold_cons (jsonParse : String → Option Args) (reg : ToolRegistry)
    (tc : PendingToolCall) (rest : List PendingToolCall)
    (acc : List LLMChunk × List ContentBlock × List String) :
    toolCallsFold jsonParse reg (tc :: rest) acc =
      toolCallsFold jsonParse reg rest
        (acc.1 ++ toolChunkPair jsonParse reg tc,
         acc.2.1 ++ [resultBlockFor jsonParse reg tc],
         expandActiveAfterTool jsonParse reg acc.2.2 tc) := rfl

/-- The tool fold emits one chunk pair per call and collects one result block
per call, in the order the model emitted the calls. -/
theorem toolCallsFold_emitted_blocks (jsonParse : String → Option Args)
    (reg : ToolRegistry) :
    ∀ (pending : List PendingToolCall) (acc : List LLMChunk × List ContentBlock × List String),
      (toolCallsFold jsonParse reg pending acc).1 =
        acc.1 ++ pending.flatMap (toolChunkPair jsonParse reg) ∧
      (toolCallsFold jsonParse reg pending acc).2.1 =
        acc.2.1 ++ pending.map (resultBlockFor jsonParse reg) := by
  intro pending
  induction pending with
  | nil => intro acc; exact ⟨by simp [toolCallsFold], by simp [toolCallsFold]⟩
  | cons tc rest ih =>
    intro acc
    rw [toolCallsFold_cons]
    obtain ⟨h1, h2⟩ := ih _
    constructor
    · rw [h1]; simp
    · rw [h2]; simp

/-- The tool fold only grows the active set. -/
theorem toolCallsFold_active_subset (jsonParse : String → Option Args)
    (reg : ToolRegistry) :
    ∀ (pending : List PendingToolCall) (acc : List LLMChunk × List ContentBlock × List String),
      acc.2.2 ⊆ (toolCallsFold jsonParse reg pending acc).2.2 := by
  intro pending
  induction pending with
  | nil => intro acc; exact fun _ h => h
  | cons tc rest ih =>
    intro acc
    rw [toolCallsFold_cons]
    exact List.Subset.trans (expandActive_subset jsonParse reg acc.2.2 tc)
      (ih (acc.1 ++ toolChunkPair jsonParse reg tc,
           acc.2.1 ++ [resultBlockFor jsonParse reg tc],
           expandActiveAfterTool jsonParse reg acc.2.2 tc))

/-- A successful `search_tools` call anywhere in the round leaves every
searched name in the round's final active set. -/
theorem toolCallsFold_search_names (jsonParse : String → Option Args)
    (reg : ToolRegistry) :
    ∀ (pending : List PendingToolCall)
      (acc : List LLMChunk × List ContentBlock × List String)
      (tc : PendingToolCall), tc ∈ pending →
      tc.name = "search_tools" →
      (reg.execute tc.name (safeParseArgs jsonParse tc.args)).success = true →
      ∀ q, lookupArg (safeParseArgs jsonParse tc.args) "query" = some q → q ≠ "" →
      ∀ t ∈ reg.search q, t.name ∈ (toolCallsFold jsonParse reg pending acc).2.2 := by
  intro pending
  induction pending with
  | nil => intro acc tc h; cases h
  | cons tc0 rest ih =>
    intro acc tc hmem hname hsucc q hq hqne t ht
    rw [toolCallsFold_cons]
    rcases List.mem_cons.mp hmem with rfl | hmem
    · exact toolCallsFold_active_subset jsonParse reg rest _
        (expandActive_search_names jsonParse reg acc.2.2 tc q hname hsucc hq hqne t ht)
    · exact ih _ tc hmem hname hsucc q hq hqne t ht

/-- Spelled-out `processToolCalls` output. -/
theorem processToolCalls_spec (jsonParse : String → Option Args) (reg : ToolRegistry)
    (fullText : String) (pending : List PendingToolCall) (active : List String) :
    (processToolCalls jsonParse reg fullText pending active).emitted =
      pending.flatMap (toolChunkPair jsonParse reg) ∧
    (processToolCalls jsonParse reg fullText pending active).resultBlocks =
      pending.map (resultBlockFor jsonParse reg) ∧
    (processToolCalls jsonParse reg fullText pending active).assistantBlocks =
      buildAssistantBlocks jsonParse fullText pending ∧
    active ⊆ (processToolCalls jsonParse reg fullText pending active).active := by
  obtain ⟨h1, h2⟩ := toolCallsFold_emitted_blocks jsonParse reg pending ([], [], active)
  refine ⟨?_, ?_, rfl, ?_⟩
  · show (toolCallsFold jsonParse reg pending ([], [], active)).1 = _
    rw [h1]
    rfl
  · show (toolCallsFold jsonParse reg pending ([], [], active)).2.1 = _
    rw [h2]
    rfl
  · exact toolCallsFold_active_subset jsonParse reg pending ([], [], active)

/-- Unfolding `streamRun` on an empty script. -/
theorem streamRun_nil (jsonParse : String → Option Args) (reg : ToolRegistry)
    (st : StreamState) :
    streamRun jsonParse reg [] st = { chunks := [], states := [st] } := rfl

/-- Unfolding `streamRun` when the model call was caught throwing: the round's
chunks are emitted and the loop breaks. -/
theorem streamRun_cons_error (jsonParse : String → Option Args) (reg : ToolRegistry)
    (mc : ModelCall) (rest : List ModelCall) (st : StreamState)
    (h : (runModelCall mc).hadError = true) :
    streamRun jsonParse reg (mc :: rest) st =
      { chunks := (runModelCall mc).emitted, states := [st] } := by
  simp only [streamRun]
  rw [if_pos h]

/-- Unfolding `streamRun` on a tool round. -/
theorem streamRun_cons_tool (jsonParse : String → Option Args) (reg : ToolRegistry)
    (mc : ModelCall) (rest : List ModelCall) (st : StreamState)
    (h1 : (runModelCall mc).hadError = false)
    (h2 : (runModelCall mc).hasPending = true)
    (h3 : (runModelCall mc).pending.isEmpty = false) :
    streamRun jsonParse reg (mc :: rest) st =
      { chunks := (runModelCall mc).emitted ++
          (processToolCalls jsonParse reg (runModelCall mc).fullText
            (runModelCall mc).pending st.active).emitted ++
          (streamRun jsonParse reg rest (nextStreamState jsonParse reg mc st)).chunks
        states := st ::
          (streamRun jsonParse reg rest (nextStreamState jsonParse reg mc st)).states } := by
  simp only [streamRun]
  rw [if_neg (by rw [h1]; exact Bool.false_ne_true), if_pos (by rw [h2, h3]; rfl)]
  rfl

/-- Unfolding `streamRun` on a final round: the model left no executable tool
calls, so `done` is emitted with the cumulative usage and the loop stops. -/
theorem streamRun_cons_done (jsonParse : String → Option Args) (reg : ToolRegistry)
    (mc : ModelCall) (rest : List ModelCall) (st : StreamState)
    (h1 : (runModelCall mc).hadError = false)
    (h2 : ((runModelCall mc).hasPending && !(runModelCall mc).pending.isEmpty) = false) :
    streamRun jsonParse reg (mc :: rest) st =
      { chunks := (runModelCall mc).emitted ++
          [.done (some ⟨st.usageIn + (runModelCall mc).usageIn,
                        st.usageOut + (runModelCall mc).usageOut⟩)]
        states := [st] } := by
  simp only [streamRun]
  rw [if_neg (by rw [h1]; exact Bool.false_ne_true), if_neg (by rw [h2]; exact Bool.false_ne_true)]

/-- The state trace always starts with the initial state. -/
theorem streamRun_states_head (jsonParse : String → Option Args) (reg : ToolRegistry)
    (script : List ModelCall) (st : StreamState) :
    ∃ tl, (streamRun jsonParse reg script st).states = st :: tl := by
  cases script with
  | nil => exact ⟨[], rfl⟩
  | cons mc rest =>
    by_cases h1 : (runModelCall mc).hadError = true
    · exact ⟨[], by rw [streamRun_cons_error jsonParse reg mc rest st h1]⟩
    · have h1' : (runModelCall mc).hadError = false := by
        rcases hb : (runModelCall mc).hadError
        · rfl
        · exact absurd hb h1
      by_cases h2 : ((runModelCall mc).hasPending && !(runModelCall mc).pending.isEmpty) = true
      · have hp : (runModelCall mc).hasPending = true := by
          cases hhp : (runModelCall mc).hasPending
          · rw [hhp] at h2; simp at h2
          · rfl
        have hq : (runModelCall mc).pending.isEmpty = false := by
          cases hie : (runModelCall mc).pending.isEmpty
          · rfl
          · rw [hie] at h2; simp at h2
        exact ⟨_, by rw [streamRun_cons_tool jsonParse reg mc rest st h1' hp hq]⟩
      · have h2' : ((runModelCall mc).hasPending && !(runModelCall mc).pending.isEmpty) = false := by
          rcases hb : ((runModelCall mc).hasPending && !(runModelCall mc).pending.isEmpty)
          · rfl
          · exact absurd hb h2
        exact ⟨[], by rw [streamRun_cons_done jsonParse reg mc rest st h1' h2']⟩

/-- Along one execution, the active tool-name set only grows: every state of
the trace contains the initial active set. -/
theorem streamRun_active_mono (jsonParse : String → Option Args) (reg : ToolRegistry) :
    ∀ (script : List ModelCall) (st : StreamState),
      ∀ s ∈ (streamRun jsonParse reg script st).states, st.active ⊆ s.active := by
  intro script
  induction script with
  | nil =>
    intro st s hs
    rw [streamRun_nil] at hs
    rcases List.mem_cons.mp hs with rfl | hs
    · exact fun _ h => h
    · cases hs
  | cons mc rest ih =>
    intro st s hs
    by_cases h1 : (runModelCall mc).hadError = true
    · rw [streamRun_cons_error jsonParse reg mc rest st h1] at hs
      rcases List.mem_cons.mp hs with rfl | hs
      · exact fun _ h => h
      · cases hs
    · have h1' : (runModelCall mc).hadError = false := by
        rcases hb : (runModelCall mc).hadError
        · rfl
        · exact absurd hb h1
      by_cases h2 : ((runModelCall mc).hasPending && !(runModelCall mc).pending.isEmpty) = true
      · have hp : (runModelCall mc).hasPending = true := by
          cases hhp : (runModelCall mc).hasPending
          · rw [hhp] at h2; simp at h2
          · rfl
        have hq : (runModelCall mc).pending.isEmpty = false := by
          cases hie : (runModelCall mc).pending.isEmpty
          · rfl
          · rw [hie] at h2; simp at h2
        rw [streamRun_cons_tool jsonParse reg mc rest st h1' hp hq] at hs
        rcases List.mem_cons.mp hs with rfl | hs
        · exact fun _ h => h
        · refine List.Subset.trans ?_ (ih (nextStreamState jsonParse reg mc st) s hs)
          show st.active ⊆ (processToolCalls jsonParse reg (runModelCall mc).fullText
            (runModelCall mc).pending st.active).active
          exact (processToolCalls_spec jsonParse reg _ _ _).2.2.2
      · have h2' : ((runModelCall mc).hasPending && !(runModelCall mc).pending.isEmpty) = false := by
          rcases hb : ((runModelCall mc).hasPending && !(runModelCall mc).pending.isEmpty)
          · rfl
          · exact absurd hb h2
        rw [streamRun_cons_done jsonParse reg mc rest st h1' h2'] at hs
        rcases List.mem_cons.mp hs with rfl | hs
        · exact fun _ h => h
        · cases hs

/-- Tool-round chunk pairs contain no `error`-typed chunks. -/
theorem flatMap_toolChunkPair_no_error (jsonParse : String → Option Args)
    (reg : ToolRegistry) (pending : List PendingToolCall) :
    (pending.flatMap (toolChunkPair jsonParse reg)).countP LLMChunk.isErrorType = 0 := by
  induction pending with
  | nil => rfl
  | cons tc rest ih =>
    simp [toolChunkPair, List.countP_cons, LLMChunk.isErrorType, ih]

/-- Tool-round chunk pairs contain exactly one `tool_result` chunk per call. -/
theorem flatMap_toolChunkPair_toolResult_count (jsonParse : String → Option Args)
    (reg : ToolRegistry) (pending : List PendingToolCall) :
    (pending.flatMap (toolChunkPair jsonParse reg)).countP LLMChunk.isToolResultType =
      pending.length := by
  induction pending with
  | nil => rfl
  | cons tc rest ih =>
    simp [toolChunkPair, List.countP_cons, LLMChunk.isToolResultType, ih]

/-- A nonempty list is not `isEmpty`. -/
theorem isEmpty_false_of_ne_nil {α} {l : List α} (h : l ≠ []) : l.isEmpty = false := by
  cases l with
  | nil => exact absurd rfl h
  | cons a l => rfl

/-! ### C1 — a mid-stream model throw ends the execution with one error chunk -/

/-- C1: when the model call of some round throws mid-stream — after any number
of completed tool rounds, the provider stream itself yielding no `error`-typed
chunks — the execution's chunk sequence is an error-free prefix followed by
exactly one `error` chunk as its final element: no `done` chunk (or any chunk)
follows it, and the rounds a longer script could describe never run. -/
theorem stream_error_ends_execution (jsonParse : String → Option Args)
    (reg : ToolRegistry) (front : List ModelCall) (mc : ModelCall)
    (rest : List ModelCall) (st : StreamState)
    (hfront : ∀ m ∈ front, ToolRoundCall m)
    (hfrontclean : ∀ m ∈ front, ∀ c ∈ m.chunks, c.isErrorType = false)
    (hmcclean : ∀ c ∈ mc.chunks, c.isErrorType = false)
    (hthrow : mc.callEnd ≠ .normal) :
    ∃ pre msg,
      (streamRun jsonParse reg (front ++ mc :: rest) st).chunks =
        pre ++ [LLMChunk.error msg] ∧
      pre.countP LLMChunk.isErrorType = 0 ∧
      (streamRun jsonParse reg (front ++ mc :: rest) st).chunks =
        (streamRun jsonParse reg (front ++ [mc]) st).chunks := by
  revert hfront hfrontclean
  induction front generalizing st with
  | nil =>
    intro _ _
    obtain ⟨herr, msg, hemit⟩ := runModelCall_throw mc hthrow
    refine ⟨yieldedChunks mc.chunks, msg, ?_, ?_, ?_⟩
    · rw [List.nil_append, streamRun_cons_error jsonParse reg mc rest st herr, hemit]
    · rw [List.countP_eq_zero]
      intro c hc
      have := hmcclean c (yieldedChunks_subset mc.chunks c hc)
      simp [this]
    · rw [List.nil_append, List.nil_append,
        streamRun_cons_error jsonParse reg mc rest st herr,
        streamRun_cons_error jsonParse reg mc [] st herr]
  | cons m ft ih =>
    intro hfront hfrontclean
    obtain ⟨hnormal, hp, hpne⟩ := hfront m (List.mem_cons_self m ft)
    have h1 : (runModelCall m).hadError = false := (runModelCall_normal m hnormal).1
    have hq : (runModelCall m).pending.isEmpty = false := isEmpty_false_of_ne_nil hpne
    obtain ⟨pre, msg, hchunks, hcount, htrunc⟩ :=
      ih (nextStreamState jsonParse reg m st)
        (fun x hx => hfront x (List.mem_cons_of_mem m hx))
        (fun x hx => hfrontclean x (List.mem_cons_of_mem m hx))
    refine ⟨(runModelCall m).emitted ++
        (processToolCalls jsonParse reg (runModelCall m).fullText
          (runModelCall m).pending st.active).emitted ++ pre, msg, ?_, ?_, ?_⟩
    · rw [List.cons_append,
        streamRun_cons_tool jsonParse reg m (ft ++ mc :: rest) st h1 hp hq]
      show (runModelCall m).emitted ++ _ ++ _ = _
      rw [hchunks]
      simp
    · rw [List.countP_append, List.countP_append]
      have he0 : (runModelCall m).emitted.countP LLMChunk.isErrorType = 0 := by
        rw [(runModelCall_normal m hnormal).2.1, List.countP_eq_zero]
        intro c hc
        have := hfrontclean m (List.mem_cons_self m ft) c (yieldedChunks_subset m.chunks c hc)
        simp [this]
      have ht0 : (processToolCalls jsonParse reg (runModelCall m).fullText
          (runModelCall m).pending st.active).emitted.countP LLMChunk.isErrorType = 0 := by
        rw [(processToolCalls_spec jsonParse reg _ _ _).1]
        exact flatMap_toolChunkPair_no_error jsonParse reg _
      rw [he0, ht0, hcount]
    · rw [List.cons_append, List.cons_append,
        streamRun_cons_tool jsonParse reg m (ft ++ mc :: rest) st h1 hp hq,
        streamRun_cons_tool jsonParse reg m (ft ++ [mc]) st h1 hp hq]
      show (runModelCall m).emitted ++ _ ++ _ = (runModelCall m).emitted ++ _ ++ _
      rw [htrunc]

/-! ### C2 — tool-result correspondence per round -/

/-- The buffered pending calls are exactly the `tool_call_end` extractions,
whether or not the stream end threw. -/
theorem runModelCall_pending (mc : ModelCall) :
    (runModelCall mc).pending = extractPending mc.chunks := by
  have hfold := foldl_processChunk_pending mc.chunks {}
  unfold runModelCall
  rcases mc.callEnd with _ | m | _
  · show (List.foldl processChunk {} mc.chunks).pending = _
    rw [hfold]
    rfl
  · show (List.foldl processChunk {} mc.chunks).pending = _
    rw [hfold]
    rfl
  · show (List.foldl processChunk {} mc.chunks).pending = _
    rw [hfold]
    rfl

/-- Result blocks keyed by id: the per-call map preserves each call's id. -/
theorem countP_resultBlocks_by_id (jsonParse : String → Option Args)
    (reg : ToolRegistry) (pending : List PendingToolCall) (id : String) :
    (pending.map (resultBlockFor jsonParse reg)).countP
        (fun b => match b with
          | .toolResult tid _ _ => tid == id
          | _ => false) =
      (pending.map PendingToolCall.id).countP (fun x => x == id) := by
  induction pending with
  | nil => rfl
  | cons tc rest ih =>
    simp only [List.map_cons, List.countP_cons, ih]
    rfl

/-- C2: in every tool-call round, the number of `tool_result` chunks emitted
(across the model pass-through and the execution phase) equals the number of
pending calls accumulated from `tool_call_end` chunks, which equals the count
of `tool_call_end` chunks of that round; and — the provider stream yielding no
`tool_result`-typed chunks of its own and using distinct call ids — every
`tool_use` block of the assistant message built for history has exactly one
`tool_result` block with the same id in the tool-result message appended
immediately after it. -/
theorem toolRound_result_correspondence (jsonParse : String → Option Args)
    (reg : ToolRegistry) (active : List String) (mc : ModelCall)
    (hNoTR : ∀ c ∈ mc.chunks, c.isToolResultType = false)
    (hNodup : ((runModelCall mc).pending.map PendingToolCall.id).Nodup) :
    ((runModelCall mc).emitted ++
        (processToolCalls jsonParse reg (runModelCall mc).fullText
          (runModelCall mc).pending active).emitted).countP LLMChunk.isToolResultType =
      (runModelCall mc).pending.length ∧
    (runModelCall mc).pending.length = mc.chunks.countP LLMChunk.isToolCallEndType ∧
    (∀ id nm inp,
      ContentBlock.toolUse id nm inp ∈
        (processToolCalls jsonParse reg (runModelCall mc).fullText
          (runModelCall mc).pending active).assistantBlocks →
      ((processToolCalls jsonParse reg (runModelCall mc).fullText
          (runModelCall mc).pending active).resultBlocks.countP
        (fun b => match b with
          | .toolResult tid _ _ => tid == id
          | _ => false)) = 1) := by
  have hyc : (yieldedChunks mc.chunks).countP LLMChunk.isToolResultType =
      mc.chunks.countP LLMChunk.isToolResultType :=
    countP_yieldedChunks _ (fun u => rfl) mc.chunks
  have hchunks0 : mc.chunks.countP LLMChunk.isToolResultType = 0 := by
    rw [List.countP_eq_zero]
    intro c hc
    simp [hNoTR c hc]
  have hemit0 : (runModelCall mc).emitted.countP LLMChunk.isToolResultType = 0 := by
    rcases hce : mc.callEnd with _ | m | _
    · rw [(runModelCall_normal mc hce).2.1, hyc, hchunks0]
    · obtain ⟨_, msg, hem⟩ := runModelCall_throw mc (by rw [hce]; intro hh; cases hh)
      rw [hem, List.countP_append, hyc, hchunks0]
      rfl
    · obtain ⟨_, msg, hem⟩ := runModelCall_throw mc (by rw [hce]; intro hh; cases hh)
      rw [hem, List.countP_append, hyc, hchunks0]
      rfl
  refine ⟨?_, ?_, ?_⟩
  · rw [List.countP_append, hemit0,
      (processToolCalls_spec jsonParse reg _ _ _).1,
      flatMap_toolChunkPair_toolResult_count]
    omega
  · rw [runModelCall_pending, extractPending_length]
  · intro id nm inp hmem
    rw [(processToolCalls_spec jsonParse reg _ _ _).2.2.1] at hmem
    unfold buildAssistantBlocks at hmem
    rcases List.mem_append.mp hmem with hmem | hmem
    · by_cases hft : ((runModelCall mc).fullText == "") = true
      · rw [if_pos hft] at hmem
        cases hmem
      · rw [if_neg hft] at hmem
        rcases List.mem_cons.mp hmem with heq | hmem
        · cases heq
        · cases hmem
    · obtain ⟨tc, htc, heq⟩ := List.mem_map.mp hmem
      have hid : tc.id = id := by
        injection heq.symm with h1 h2 h3
        exact h1.symm
      rw [(processToolCalls_spec jsonParse reg _ _ _).2.1,
        countP_resultBlocks_by_id]
      have hmemid : id ∈ (runModelCall mc).pending.map PendingToolCall.id := by
        rw [← hid]
        exact List.mem_map_of_mem PendingToolCall.id htc
      have := List.count_eq_one_of_mem hNodup hmemid
      simpa [List.count] using this

/-! ### C6 — search_tools expands the active tool set for later rounds -/

/-- C6: when a round's pending calls include a `search_tools` call that
succeeds with a truthy query, every tool name `ToolRegistry.search` returns
for that query is in the active tool-name set of every later round of the
same execution — with no re-registration: the registry itself is untouched —
regardless of whether those names were in the initial allow-set. -/
theorem searchTools_expands_active (jsonParse : String → Option Args)
    (reg : ToolRegistry) (front : List ModelCall) (mc : ModelCall)
    (rest : List ModelCall) (st : StreamState)
    (hfront : ∀ m ∈ front, ToolRoundCall m)
    (hmc : ToolRoundCall mc)
    (tc : PendingToolCall) (htc : tc ∈ (runModelCall mc).pending)
    (hname : tc.name = "search_tools")
    (hsucc : (reg.execute tc.name (safeParseArgs jsonParse tc.args)).success = true)
    (q : String) (hq : lookupArg (safeParseArgs jsonParse tc.args) "query" = some q)
    (hqne : q ≠ "") :
    ∀ s ∈ (streamRun jsonParse reg (front ++ mc :: rest) st).states.drop
        (front.length + 1),
      ∀ t ∈ reg.search q, t.name ∈ s.active := by
  revert hfront
  induction front generalizing st with
  | nil =>
    intro _
    obtain ⟨hnormal, hp, hpne⟩ := hmc
    have h1 := (runModelCall_normal mc hnormal).1
    have hqemp := isEmpty_false_of_ne_nil hpne
    intro s hs t ht
    rw [List.nil_append, streamRun_cons_tool jsonParse reg mc rest st h1 hp hqemp] at hs
    simp only [List.length_nil, Nat.zero_add, List.drop_succ_cons, List.drop_zero] at hs
    have hnames : t.name ∈ (nextStreamState jsonParse reg mc st).active := by
      show t.name ∈ (processToolCalls jsonParse reg (runModelCall mc).fullText
        (runModelCall mc).pending st.active).active
      exact toolCallsFold_search_names jsonParse reg _ ([], [], st.active) tc htc
        hname hsucc q hq hqne t ht
    exact streamRun_active_mono jsonParse reg rest _ s hs hnames
  | cons m ft ih =>
    intro hfront
    obtain ⟨hnormal, hp, hpne⟩ := hfront m (List.mem_cons_self m ft)
    have h1 := (runModelCall_normal m hnormal).1
    have hqemp := isEmpty_false_of_ne_nil hpne
    intro s hs t ht
    rw [List.cons_append,
      streamRun_cons_tool jsonParse reg m (ft ++ mc :: rest) st h1 hp hqemp] at hs
    simp only [List.length_cons, List.drop_succ_cons] at hs
    exact ih (nextStreamState jsonParse reg m st)
      (fun x hx => hfront x (List.mem_cons_of_mem m hx)) s hs t ht

/-- C1 witness: one completed tool round, then a throwing model call, on a
concrete registry and state. -/
theorem stream_error_ends_execution_witness :
    ∃ pre msg,
      (streamRun (fun _ => some []) wRegC4 ([wMcTool] ++ wMcThrow :: []) wState).chunks =
        pre ++ [LLMChunk.error msg] ∧
      pre.countP LLMChunk.isErrorType = 0 ∧
      (streamRun (fun _ => some []) wRegC4 ([wMcTool] ++ wMcThrow :: []) wState).chunks =
        (streamRun (fun _ => some []) wRegC4 ([wMcTool] ++ [wMcThrow]) wState).chunks := by
  exact stream_error_ends_execution (fun _ => some []) wRegC4 [wMcTool] wMcThrow [] wState
    (by intro m hm; rcases List.mem_cons.mp hm with rfl | hm
        · exact ⟨rfl, by decide, by decide⟩
        · cases hm)
    (by decide) (by decide) (by decide)

/-- C2 witness: the concrete tool round `wMcTool` against the concrete
registry, checked at the call id `"t1"`. -/
theorem toolRound_result_correspondence_witness :
    ((runModelCall wMcTool).emitted ++
        (processToolCalls (fun _ => some []) wRegC4 (runModelCall wMcTool).fullText
          (runModelCall wMcTool).pending ["calculate"]).emitted).countP
        LLMChunk.isToolResultType = (runModelCall wMcTool).pending.length ∧
    (runModelCall wMcTool).pending.length =
      wMcTool.chunks.countP LLMChunk.isToolCallEndType ∧
    ((processToolCalls (fun _ => some []) wRegC4 (runModelCall wMcTool).fullText
        (runModelCall wMcTool).pending ["calculate"]).resultBlocks.countP
      (fun b => match b with
        | .toolResult tid _ _ => tid == "t1"
        | _ => false)) = 1 := by
  have h := toolRound_result_correspondence (fun _ => some []) wRegC4 ["calculate"] wMcTool
    (by decide) (by decide)
  exact ⟨h.1, h.2.1, h.2.2 "t1" "calculate" [] (by decide)⟩

/-- C6 witness: after the concrete `search_tools` round, `read_file` — absent
from the original allow-set — is active in the next round's state. -/
theorem searchTools_expands_active_witness :
    "read_file" ∈ (nextStreamState (fun _ => some [("query", "file")]) wRegC6 wMcSearch
      { messages := [], active := ["search_tools"] }).active := by
  have h := searchTools_expands_active (fun _ => some [("query", "file")]) wRegC6 []
    wMcSearch [] { messages := [], active := ["search_tools"] }
    (by intro m hm; cases hm)
    ⟨rfl, by decide, by decide⟩
    ⟨"s1", "search_tools", "q"⟩ (by decide) rfl (by decide)
    "file" (by decide) (by decide)
  have hdrop : (streamRun (fun _ => some [("query", "file")]) wRegC6
      ([] ++ wMcSearch :: []) { messages := [], active := ["search_tools"] }).states.drop
        (([] : List ModelCall).length + 1) =
      [nextStreamState (fun _ => some [("query", "file")]) wRegC6 wMcSearch
        { messages := [], active := ["search_tools"] }] := rfl
  have hsearch : wRegC6.search "file" = [wReadFile] := rfl
  have := h (nextStreamState (fun _ => some [("query", "file")]) wRegC6 wMcSearch
      { messages := [], active := ["search_tools"] })
    (by rw [hdrop]; exact List.mem_singleton_self _)
    wReadFile (by rw [hsearch]; exact List.mem_singleton_self _)
  exact this

/-! ### C1 / C6 follow-ups: the chat-handler copy of the loop, and the
empty-query search expansion guard -/

/-- C1: failing input on the `ChatHandler.createStreamResponse` copy of the
loop — the model call yields one text delta and then throws mid-stream, with
no tool calls pending.  The loop emits the caught `error` chunk and then,
having no error flag to break on, emits a `done` chunk right after it.  This
contradicts the specified failure semantics ("ends the execution
immediately", Scenario E), which `AgentRunner.stream` does implement via its
`hadError` break (see `stream_error_ends_execution`). -/
theorem chatStream_done_follows_error :
    chatCreateStreamResponse [⟨[.text "partial"], .throwErr "network failure"⟩] 0 0 =
      [.text "partial", .error "network failure", .done (some ⟨0, 0⟩)] := rfl

/-- C6 counterexample: with the query argument parsed as the empty string,
the concrete `search_tools` call succeeds and the search returns every
registered tool — `read_file` included — yet the falsy-query guard
(`if (query)`, part_004 lines 386-391) skips the expansion, so the next
round's active set does not contain `read_file`. -/
theorem searchTools_empty_query_counterexample :
    (wRegC6.execute "search_tools"
        (safeParseArgs (fun _ => some [("query", "")]) "q")).success = true ∧
    wRegC6.search "" = [wSearchTools, wReadFile] ∧
    "read_file" ∉ (nextStreamState (fun _ => some [("query", "")]) wRegC6 wMcSearch
        { messages := [], active := ["search_tools"] }).active := by
  refine ⟨by decide, rfl, by decide⟩
